import Mathlib

/-!
# Verification of the ABI type system, argument codec and transaction model

This file gives a shallow embedding, in Lean 4, of the core data model and
operations of the `mx-sdk-erdjs` repository:

* the value codec (top-level and nested encode/decode over the ABI type
  catalogue), the argument serializer (`valuesToStrings`) and the
  `@`-separated transaction payload;
* the type-expression parser and the type mapper;
* the smart-contract transaction factory's argument conversion
  (`argsToDataParts`, from `src/transactionsFactories/smartContractTransactionsFactory.ts`);
* the `Transaction` plain-object serialization used for signing
  (`serializeForSigning` / `applySignature`, from `src/transaction.ts`).

The codec, serializer, parser and mapper sources are not part of the source
snapshot (only their tests and call sites are), so those definitions are
modelled from the specification document, as indicated in their doc comments.
Bytes are modelled as `List Nat` (each entry `< 256`), strings as `List Char`.
-/

namespace ErdSpec

/-! ## Byte-level helpers for the numeric codecs -/

/-- Big-endian interpretation of a byte sequence as an unsigned number
(`Buffer` to `BigNumber`, most-significant byte first). -/
def bytesToNat (bs : List Nat) : Nat :=
  bs.foldl (fun acc b => acc * 256 + b) 0

/-- Big-endian base-256 digits of `n`, exactly `w` bytes wide (the value is
taken modulo `256 ^ w`); used for fixed-width integer encodings and for the
4-byte length headers of nested encodings. -/
def natToBytesFixed : Nat → Nat → List Nat
  | 0, _ => []
  | w + 1, n => natToBytesFixed w (n / 256) ++ [n % 256]

/-- Modelled from the spec: "Numeric values use the minimal big-endian byte
representation with no sign-extension; zero encodes as the empty byte
sequence" (§4.3).  The minimal representation is obtained by stripping the
leading zero bytes of a (sufficiently wide) fixed-width encoding. -/
def natToBytesMin (n : Nat) : List Nat :=
  (natToBytesFixed n n).dropWhile (· == 0)

theorem bytesToNat_append_singleton (bs : List Nat) (b : Nat) :
    bytesToNat (bs ++ [b]) = bytesToNat bs * 256 + b := by
  simp [bytesToNat, List.foldl_append]

theorem bytesToNat_nil : bytesToNat [] = 0 := rfl

theorem natToBytesFixed_length (w n : Nat) : (natToBytesFixed w n).length = w := by
  induction w generalizing n with
  | zero => simp [natToBytesFixed]
  | succ w ih => simp [natToBytesFixed, ih]

theorem pow_succ_256 (w : Nat) : (256 : Nat) ^ (w + 1) = 256 * 256 ^ w := by
  rw [Nat.pow_succ]; ring

theorem bytesToNat_natToBytesFixed (w n : Nat) :
    bytesToNat (natToBytesFixed w n) = n % 256 ^ w := by
  induction w generalizing n with
  | zero => simp [natToBytesFixed, bytesToNat, Nat.mod_one]
  | succ w ih =>
    rw [natToBytesFixed, bytesToNat_append_singleton, ih, pow_succ_256, Nat.mod_mul]
    ring

theorem natToBytesFixed_zero (w : Nat) : natToBytesFixed w 0 = List.replicate w 0 := by
  induction w with
  | zero => simp [natToBytesFixed]
  | succ w ih => simp [natToBytesFixed, ih, List.replicate_succ']

/-- Splitting a fixed-width encoding: the first `a` bytes encode the high part. -/
theorem natToBytesFixed_add (a b n : Nat) :
    natToBytesFixed (a + b) n = natToBytesFixed a (n / 256 ^ b) ++ natToBytesFixed b n := by
  induction b generalizing n with
  | zero => simp [natToBytesFixed]
  | succ b ih =>
    have h1 : a + (b + 1) = (a + b) + 1 := by omega
    have h2 : (256 : Nat) * 256 ^ b = 256 ^ (b + 1) := (pow_succ_256 b).symm
    rw [h1, natToBytesFixed, ih, natToBytesFixed, Nat.div_div_eq_div_mul, h2,
      List.append_assoc]

theorem bytesToNat_replicate_zero_append (k : Nat) (bs : List Nat) :
    bytesToNat (List.replicate k 0 ++ bs) = bytesToNat bs := by
  induction k with
  | zero => simp
  | succ k ih =>
    simp only [List.replicate_succ, List.cons_append]
    simpa [bytesToNat] using ih

theorem dropWhile_replicate_append (k : Nat) (bs : List Nat) :
    (List.replicate k 0 ++ bs).dropWhile (· == 0) = bs.dropWhile (· == 0) := by
  induction k with
  | zero => simp
  | succ k ih => simp [List.replicate_succ, ih]

theorem bytesToNat_dropWhile_zero (bs : List Nat) :
    bytesToNat (bs.dropWhile (· == 0)) = bytesToNat bs := by
  induction bs with
  | nil => simp
  | cons b bs ih =>
    by_cases hb : b = 0
    · subst hb
      simpa [List.dropWhile_cons, bytesToNat] using ih
    · simp [List.dropWhile_cons, hb]

theorem length_dropWhile_le (p : Nat → Bool) (l : List Nat) :
    (l.dropWhile p).length ≤ l.length := by
  induction l with
  | nil => simp
  | cons a l ih =>
    rw [List.dropWhile_cons]
    by_cases h : p a = true
    · simp only [h, if_pos]
      exact Nat.le_trans ih (by simp)
    · simp [h]

theorem lt_pow_self_256 (n : Nat) : n < 256 ^ n :=
  Nat.lt_of_lt_of_le (Nat.lt_two_pow n) (Nat.pow_le_pow_left (by omega) n)

theorem bytesToNat_natToBytesMin (n : Nat) : bytesToNat (natToBytesMin n) = n := by
  rw [natToBytesMin, bytesToNat_dropWhile_zero, bytesToNat_natToBytesFixed,
    Nat.mod_eq_of_lt (lt_pow_self_256 n)]

theorem natToBytesMin_zero : natToBytesMin 0 = [] := rfl

theorem natToBytesMin_length_le (n w : Nat) (h : n < 256 ^ w) :
    (natToBytesMin n).length ≤ w := by
  rcases Nat.le_total n w with hnw | hwn
  · calc (natToBytesMin n).length ≤ (natToBytesFixed n n).length :=
          length_dropWhile_le _ _
      _ = n := natToBytesFixed_length n n
      _ ≤ w := hnw
  · have hsum : n = (n - w) + w := by omega
    have hsplit : natToBytesFixed n n
        = natToBytesFixed (n - w) (n / 256 ^ w) ++ natToBytesFixed w n := by
      have hadd := natToBytesFixed_add (n - w) w n
      rw [← hsum] at hadd
      exact hadd
    have hdiv : n / 256 ^ w = 0 := Nat.div_eq_of_lt h
    rw [natToBytesMin, hsplit, hdiv, natToBytesFixed_zero, dropWhile_replicate_append]
    calc ((natToBytesFixed w n).dropWhile (· == 0)).length
        ≤ (natToBytesFixed w n).length := length_dropWhile_le _ _
      _ = w := natToBytesFixed_length w n

/-! ## Signed (two's complement) helpers -/

/-- Two's-complement interpretation of a big-endian byte sequence: the whole
buffer is read as an unsigned number and re-centred when the sign bit of the
leading byte is set; the empty buffer reads as zero. -/
def intFromBytes (bs : List Nat) : Int :=
  if 2 * bytesToNat bs < 256 ^ bs.length then (bytesToNat bs : Int)
  else (bytesToNat bs : Int) - ((256 ^ bs.length : Nat) : Int)

/-- Fixed-width two's-complement encoding of an integer (`w` bytes,
value taken modulo `256 ^ w`). -/
def intToBytesFixed (w : Nat) (i : Int) : List Nat :=
  natToBytesFixed w (i % ((256 : Int) ^ w)).toNat

/-- `i` is representable in `w` bytes of two's complement. -/
def inIntRange (w : Nat) (i : Int) : Prop :=
  -((128 : Int) * 256 ^ (w - 1)) ≤ i ∧ i < (128 : Int) * 256 ^ (w - 1)

instance (w : Nat) (i : Int) : Decidable (inIntRange w i) := by
  unfold inIntRange; infer_instance

theorem intFromBytes_nil : intFromBytes [] = 0 := rfl

theorem pow_split_int (w : Nat) (hw : 1 ≤ w) :
    ((256 : Int) ^ w) = 2 * (128 * 256 ^ (w - 1)) := by
  obtain ⟨k, rfl⟩ : ∃ k, w = k + 1 := ⟨w - 1, by omega⟩
  rw [pow_succ]
  simp only [Nat.add_sub_cancel]
  ring

theorem intToBytesFixed_length (w : Nat) (i : Int) :
    (intToBytesFixed w i).length = w := natToBytesFixed_length _ _

theorem intFromBytes_intToBytesFixed (w : Nat) (i : Int) (hw : 1 ≤ w)
    (h : inIntRange w i) : intFromBytes (intToBytesFixed w i) = i := by
  obtain ⟨hlo, hhi⟩ := h
  have hM : (0 : Int) < (256 : Int) ^ w := by positivity
  have hsplit : ((256 : Int) ^ w) = 2 * (128 * 256 ^ (w - 1)) := pow_split_int w hw
  have hcastpow : ((256 ^ w : Nat) : Int) = (256 : Int) ^ w := by push_cast; ring
  have hemod_lt : i % ((256 : Int) ^ w) < (256 : Int) ^ w := Int.emod_lt_of_pos i hM
  have hemod_nonneg : 0 ≤ i % ((256 : Int) ^ w) := Int.emod_nonneg i (by positivity)
  have hval : bytesToNat (intToBytesFixed w i) = (i % ((256 : Int) ^ w)).toNat := by
    rw [intToBytesFixed, bytesToNat_natToBytesFixed]
    apply Nat.mod_eq_of_lt
    have hlt : ((i % ((256 : Int) ^ w)).toNat : Int) < ((256 ^ w : Nat) : Int) := by
      rw [Int.toNat_of_nonneg hemod_nonneg, hcastpow]
      exact hemod_lt
    exact_mod_cast hlt
  rw [intFromBytes, intToBytesFixed_length, hval]
  rcases le_or_lt 0 i with hpos | hneg
  · have hemod : i % ((256 : Int) ^ w) = i := Int.emod_eq_of_lt hpos (by omega)
    rw [hemod]
    have hm2 : 2 * i.toNat < 256 ^ w := by
      have h2i : (2 * i.toNat : Int) < ((256 ^ w : Nat) : Int) := by
        rw [hcastpow]
        push_cast [Int.toNat_of_nonneg hpos]
        omega
      exact_mod_cast h2i
    rw [if_pos hm2, Int.toNat_of_nonneg hpos]
  · have hemod : i % ((256 : Int) ^ w) = i + (256 : Int) ^ w := by
      have h1 : (i + (256 : Int) ^ w * 1) % ((256 : Int) ^ w) = i % ((256 : Int) ^ w) :=
        Int.add_mul_emod_self_left i ((256 : Int) ^ w) 1
      rw [mul_one] at h1
      rw [← h1]
      exact Int.emod_eq_of_lt (by omega) (by omega)
    rw [hemod]
    have htn : ((i + (256 : Int) ^ w).toNat : Int) = i + (256 : Int) ^ w :=
      Int.toNat_of_nonneg (by omega)
    have hm2 : ¬ (2 * (i + (256 : Int) ^ w).toNat < 256 ^ w) := by
      intro hcon
      have h2i : (2 * (i + (256 : Int) ^ w).toNat : Int) < ((256 ^ w : Nat) : Int) := by
        exact_mod_cast hcon
      rw [hcastpow] at h2i
      push_cast [htn] at h2i
      omega
    rw [if_neg hm2, hcastpow, htn]
    ring

/-- First byte width `≥ from` (scanned upward, at most `fuel` steps) in which
`i` is representable in two's complement. -/
def intWidthSearch (i : Int) : Nat → Nat → Nat
  | w, 0 => w
  | w, fuel + 1 => if inIntRange w i then w else intWidthSearch i (w + 1) fuel

/-- Width, in bytes, of the minimal two's-complement representation of `i`. -/
def intMinWidth (i : Int) : Nat :=
  intWidthSearch i 1 (i.natAbs + 1)

/-- Modelled from the spec: minimal big-endian two's-complement representation
of a signed number; zero encodes as the empty byte sequence (§4.3). -/
def intToBytesMin (i : Int) : List Nat :=
  if i = 0 then [] else intToBytesFixed (intMinWidth i) i

theorem intToBytesMin_zero : intToBytesMin 0 = [] := rfl

theorem intWidthSearch_inRange (i : Int) (fuel w : Nat)
    (h : inIntRange (w + fuel) i) : inIntRange (intWidthSearch i w (fuel + 1)) i := by
  induction fuel generalizing w with
  | zero =>
    rw [intWidthSearch]
    have h0 : inIntRange w i := by simpa using h
    rw [if_pos h0]
    exact h0
  | succ fuel ih =>
    rw [intWidthSearch]
    by_cases hw : inIntRange w i
    · rw [if_pos hw]; exact hw
    · rw [if_neg hw]
      have he : w + 1 + fuel = w + (fuel + 1) := by omega
      exact ih (w + 1) (he ▸ h)

theorem intWidthSearch_le (i : Int) (fuel w u : Nat) (hwu : w ≤ u)
    (hu : inIntRange u i) (hfuel : u ≤ w + fuel) : intWidthSearch i w fuel ≤ u := by
  induction fuel generalizing w with
  | zero =>
    rw [intWidthSearch]
    omega
  | succ fuel ih =>
    rw [intWidthSearch]
    by_cases hw : inIntRange w i
    · rw [if_pos hw]; exact hwu
    · rw [if_neg hw]
      have hne : w ≠ u := fun he => hw (he ▸ hu)
      exact ih (w + 1) (by omega) (by omega)

theorem natAbs_lt_half_range (i : Int) :
    (i.natAbs : Int) < 128 * 256 ^ i.natAbs := by
  have h1 : i.natAbs < 256 ^ i.natAbs := lt_pow_self_256 i.natAbs
  have h2 : (256 : Nat) ^ i.natAbs ≤ 128 * 256 ^ i.natAbs := by
    nlinarith [Nat.pos_pow_of_pos i.natAbs (show 0 < 256 by omega)]
  have h3 : (i.natAbs : Nat) < 128 * 256 ^ i.natAbs := by omega
  exact_mod_cast h3

theorem inIntRange_natAbs_succ (i : Int) : inIntRange (1 + i.natAbs) i := by
  have h := natAbs_lt_half_range i
  have habs : i = (i.natAbs : Int) ∨ i = -(i.natAbs : Int) := Int.natAbs_eq i
  constructor
  · simp only [Nat.add_sub_cancel_left]
    rcases habs with he | he <;> omega
  · simp only [Nat.add_sub_cancel_left]
    rcases habs with he | he <;> omega

theorem inIntRange_intMinWidth (i : Int) : inIntRange (intMinWidth i) i := by
  rw [intMinWidth]
  exact intWidthSearch_inRange i i.natAbs 1 (inIntRange_natAbs_succ i)

theorem intMinWidth_pos (i : Int) : 1 ≤ intMinWidth i := by
  rw [intMinWidth]
  have : ∀ fuel w, w ≤ intWidthSearch i w fuel := by
    intro fuel
    induction fuel with
    | zero => intro w; rw [intWidthSearch]
    | succ fuel ih =>
      intro w
      rw [intWidthSearch]
      by_cases hw : inIntRange w i
      · rw [if_pos hw]
      · rw [if_neg hw]
        exact Nat.le_trans (by omega) (ih (w + 1))
  exact this _ 1

/-- Minimality: the chosen width is at most any width that can represent `i`. -/
theorem intMinWidth_le (i : Int) (w : Nat) (hw : 1 ≤ w) (h : inIntRange w i) :
    intMinWidth i ≤ w := by
  rcases Nat.le_total w (1 + i.natAbs) with hle | hge
  · exact intWidthSearch_le i (i.natAbs + 1) 1 w hw h (by omega)
  · have h1 := intWidthSearch_le i (i.natAbs + 1) 1 (1 + i.natAbs)
      (by omega) (inIntRange_natAbs_succ i) (by omega)
    calc intMinWidth i ≤ 1 + i.natAbs := h1
      _ ≤ w := hge

theorem intFromBytes_intToBytesMin (i : Int) : intFromBytes (intToBytesMin i) = i := by
  rw [intToBytesMin]
  by_cases h0 : i = 0
  · rw [if_pos h0, intFromBytes_nil, h0]
  · rw [if_neg h0]
    exact intFromBytes_intToBytesFixed _ i (intMinWidth_pos i) (inIntRange_intMinWidth i)

theorem intToBytesMin_length_le (i : Int) (w : Nat) (hw : 1 ≤ w)
    (h : inIntRange w i) : (intToBytesMin i).length ≤ w := by
  rw [intToBytesMin]
  by_cases h0 : i = 0
  · simp [h0]
  · rw [if_neg h0, intToBytesFixed_length]
    exact intMinWidth_le i w hw h

/-! ## The type catalogue

Modelled from the spec (§2, §4.3): the closed set of concrete single-value
types — fixed-width unsigned/signed integers (`u8..u64` / `i8..i64`, widths in
bytes), arbitrary-precision `BigUint`/`BigInt`, 32-byte `Address`, raw
`bytes`/`utf-8 string`/`TokenIdentifier`, `bool`, and the generic containers
`Option<T>`, `List<T>`, fixed arrays `arrayN<T>` and tuples.  Variadic and
composite multi-value kinds are not single values (§4.3 table: "not a single
value") and live at the argument-serializer level instead. -/
inductive Ty where
  | tyU (w : Nat)
  | tyI (w : Nat)
  | tyBigUint
  | tyBigInt
  | tyAddress
  | tyBytes
  | tyString
  | tyTokenId
  | tyBool
  | tyOption (t : Ty)
  | tyList (t : Ty)
  | tyArray (n : Nat) (t : Ty)
  | tyTuple (ts : List Ty)

/-- Modelled from the spec (§3 "TypedValue"): the underlying data of a typed
value.  The pairing with its `Ty` is expressed by the `wellTyped` predicate. -/
inductive Val where
  | vU (w n : Nat)
  | vI (w : Nat) (i : Int)
  | vBigUint (n : Nat)
  | vBigInt (i : Int)
  | vAddress (bs : List Nat)
  | vBytes (bs : List Nat)
  | vString (bs : List Nat)
  | vTokenId (bs : List Nat)
  | vBool (b : Bool)
  | vNone
  | vSome (v : Val)
  | vList (vs : List Val)
  | vArray (vs : List Val)
  | vTuple (vs : List Val)

/-- The 4-byte big-endian unsigned length header of nested variable-size
encodings (§4.3), followed by the payload. -/
def lenPrefix (p : List Nat) : List Nat :=
  natToBytesFixed 4 p.length ++ p

mutual
/-- Every valid value of the type occupies at least one byte in nested
encoding.  This rules out degenerate element types (such as a zero-member
tuple) whose values all encode to zero bytes and therefore could not be
enumerated by a list decoder; every type in the chain's actual catalogue is
positively sized. -/
def sizedPos : Ty → Bool
  | .tyU w => 1 ≤ w
  | .tyI w => 1 ≤ w
  | .tyBigUint => true
  | .tyBigInt => true
  | .tyAddress => true
  | .tyBytes => true
  | .tyString => true
  | .tyTokenId => true
  | .tyBool => true
  | .tyOption _ => true
  | .tyList _ => true
  | .tyArray n t => 1 ≤ n && sizedPos t
  | .tyTuple ts => sizedPosAny ts
def sizedPosAny : List Ty → Bool
  | [] => false
  | t :: ts => sizedPos t || sizedPosAny ts
end


mutual
/-- Modelled from the spec (§4.3), nested encoding mode: fixed-size types
encode at their exact declared width; variable-size payloads get a 4-byte
big-endian length header; `Option` carries a one-byte presence marker (the
marker is what lets the containing decoder know how many bytes to consume,
per the stated purpose of nested mode); array and tuple members are
concatenated with no header. -/
def encodeNested : Val → List Nat
  | .vU w n => natToBytesFixed w n
  | .vI w i => intToBytesFixed w i
  | .vBigUint n => lenPrefix (natToBytesMin n)
  | .vBigInt i => lenPrefix (intToBytesMin i)
  | .vAddress bs => bs
  | .vBytes bs => lenPrefix bs
  | .vString bs => lenPrefix bs
  | .vTokenId bs => lenPrefix bs
  | .vBool b => [if b then 1 else 0]
  | .vNone => [0]
  | .vSome v => 1 :: encodeNested v
  | .vList vs => lenPrefix (encodeList vs)
  | .vArray vs => encodeList vs
  | .vTuple vs => encodeList vs
def encodeList : List Val → List Nat
  | [] => []
  | v :: vs => encodeNested v ++ encodeList vs
end

/-- Modelled from the spec (§4.3).  Top-level mode: variable-size values are
their raw minimal representation with no length marker; numeric zero and
boolean `false` encode as the empty sequence; an absent `Option` is empty and
a present one is the marker byte followed by the nested payload; containers
concatenate the nested encodings of their members. -/
def encodeTopLevel : Val → List Nat
  | .vU _ n => natToBytesMin n
  | .vI _ i => intToBytesMin i
  | .vBigUint n => natToBytesMin n
  | .vBigInt i => intToBytesMin i
  | .vAddress bs => bs
  | .vBytes bs => bs
  | .vString bs => bs
  | .vTokenId bs => bs
  | .vBool b => if b then [1] else []
  | .vNone => []
  | .vSome v => 1 :: encodeNested v
  | .vList vs => encodeList vs
  | .vArray vs => encodeList vs
  | .vTuple vs => encodeList vs

mutual
/-- Modelled from the spec (§3, §4.3): validity of a value at a type.
Numeric values must fit the declared width; addresses are exactly 32 raw
public-key bytes; byte-string payloads are bytes (`< 256`) and small enough
for a 4-byte length header; list elements, array members and tuple members
are validated recursively (arrays carry exactly their declared number of
members, tuples one member per component type); variable-size payloads,
including a list's concatenated element encoding, must fit a 4-byte length
header. -/
def wellTyped : Val → Ty → Bool
  | .vU w n, .tyU w' => w == w' && 1 ≤ w && n < 256 ^ w
  | .vI w i, .tyI w' => w == w' && 1 ≤ w && decide (inIntRange w i)
  | .vBigUint n, .tyBigUint => (natToBytesMin n).length < 256 ^ 4
  | .vBigInt i, .tyBigInt => (intToBytesMin i).length < 256 ^ 4
  | .vAddress bs, .tyAddress => bs.length == 32 && bs.all (· < 256)
  | .vBytes bs, .tyBytes => bs.length < 256 ^ 4 && bs.all (· < 256)
  | .vString bs, .tyString => bs.length < 256 ^ 4 && bs.all (· < 256)
  | .vTokenId bs, .tyTokenId => bs.length < 256 ^ 4 && bs.all (· < 256)
  | .vBool _, .tyBool => true
  | .vNone, .tyOption _ => true
  | .vSome v, .tyOption t => wellTyped v t
  | .vList vs, .tyList t =>
    sizedPos t && wellTypedList vs t && (encodeList vs).length < 256 ^ 4
  | .vArray vs, .tyArray n t => vs.length == n && wellTypedList vs t
  | .vTuple vs, .tyTuple ts => wellTypedZip vs ts
  | _, _ => false
def wellTypedList : List Val → Ty → Bool
  | [], _ => true
  | v :: vs, t => wellTyped v t && wellTypedList vs t
def wellTypedZip : List Val → List Ty → Bool
  | [], [] => true
  | v :: vs, t :: ts => wellTyped v t && wellTypedZip vs ts
  | _, _ => false
end

/-! ## The value codec: decoding -/

/-- Read a 4-byte big-endian length header and split off that many payload
bytes; fails (`ErrCodec` in the source taxonomy) when fewer bytes remain than
the header or the announced length requires (§4.3). -/
def splitLen (bs : List Nat) : Option (List Nat × List Nat) :=
  if 4 ≤ bs.length then
    let L := bytesToNat (bs.take 4)
    let rest := bs.drop 4
    if L ≤ rest.length then some (rest.take L, rest.drop L) else none
  else none

mutual
/-- Modelled from the spec (§4.3), nested decoding: mirrors `encodeNested`,
consuming an exact-width slice for fixed-size types, a length header plus
payload for variable-size ones, a presence/boolean marker byte for
`Option`/`bool`, and recursing member-wise for containers; returns the value
and the unconsumed remainder, failing on buffer underrun (`ErrCodec`). -/
def decodeNested : Ty → List Nat → Option (Val × List Nat)
  | .tyU w, bs =>
    if w ≤ bs.length then some (.vU w (bytesToNat (bs.take w)), bs.drop w) else none
  | .tyI w, bs =>
    if w ≤ bs.length then some (.vI w (intFromBytes (bs.take w)), bs.drop w) else none
  | .tyBigUint, bs =>
    (splitLen bs).map (fun p => (.vBigUint (bytesToNat p.1), p.2))
  | .tyBigInt, bs =>
    (splitLen bs).map (fun p => (.vBigInt (intFromBytes p.1), p.2))
  | .tyAddress, bs =>
    if 32 ≤ bs.length then some (.vAddress (bs.take 32), bs.drop 32) else none
  | .tyBytes, bs => (splitLen bs).map (fun p => (.vBytes p.1, p.2))
  | .tyString, bs => (splitLen bs).map (fun p => (.vString p.1, p.2))
  | .tyTokenId, bs => (splitLen bs).map (fun p => (.vTokenId p.1, p.2))
  | .tyBool, bs =>
    match bs with
    | 0 :: rest => some (.vBool false, rest)
    | 1 :: rest => some (.vBool true, rest)
    | _ => none
  | .tyOption t, bs =>
    match bs with
    | 0 :: rest => some (.vNone, rest)
    | 1 :: rest => (decodeNested t rest).map (fun p => (.vSome p.1, p.2))
    | _ => none
  | .tyList t, bs => do
    let (payload, rest) ← splitLen bs
    let vs ← decodeElems t payload.length payload
    some (.vList vs, rest)
  | .tyArray n t, bs => do
    let (vs, rest) ← decodeCount t n bs
    some (.vArray vs, rest)
  | .tyTuple ts, bs => do
    let (vs, rest) ← decodeMembers ts bs
    some (.vTuple vs, rest)
termination_by t _bs => (sizeOf t, 0, 0)
/-- Decode list elements from a payload until it is exhausted (the byte count
taken from the length header delimits the list, §4.3); each step must consume
at least one byte. -/
def decodeElems : Ty → Nat → List Nat → Option (List Val)
  | _, _, [] => some []
  | _, 0, _ :: _ => none
  | t, fuel + 1, b :: bs => do
    let (v, rest) ← decodeNested t (b :: bs)
    if rest.length < (b :: bs).length then
      let vs ← decodeElems t fuel rest
      some (v :: vs)
    else none
termination_by t fuel _bs => (sizeOf t, 1, fuel)
/-- Decode exactly `n` members of a fixed array (§4.3). -/
def decodeCount : Ty → Nat → List Nat → Option (List Val × List Nat)
  | _, 0, bs => some ([], bs)
  | t, n + 1, bs => do
    let (v, rest) ← decodeNested t bs
    let (vs, rest2) ← decodeCount t n rest
    some (v :: vs, rest2)
termination_by t n _bs => (sizeOf t, 1, n)
/-- Decode one member per component type, in declared order (§4.3). -/
def decodeMembers : List Ty → List Nat → Option (List Val × List Nat)
  | [], bs => some ([], bs)
  | t :: ts, bs => do
    let (v, rest) ← decodeNested t bs
    let (vs, rest2) ← decodeMembers ts rest
    some (v :: vs, rest2)
termination_by ts _bs => (sizeOf ts, 0, 0)
end

/-- Modelled from the spec (§4.3), top-level decoding: the whole buffer is one
standalone argument.  Numeric buffers may be at most the declared width and are
read as (two's-complement, for signed) big-endian numbers, the empty buffer
reading as zero; an empty buffer is an absent `Option` or `false`; a list
consumes elements until the buffer is exhausted; arrays and tuples must consume
the buffer exactly. -/
def decodeTopLevel : Ty → List Nat → Option Val
  | .tyU w, bs =>
    if bs.length ≤ w then some (.vU w (bytesToNat bs)) else none
  | .tyI w, bs =>
    if bs.length ≤ w then some (.vI w (intFromBytes bs)) else none
  | .tyBigUint, bs => some (.vBigUint (bytesToNat bs))
  | .tyBigInt, bs => some (.vBigInt (intFromBytes bs))
  | .tyAddress, bs => if bs.length = 32 then some (.vAddress bs) else none
  | .tyBytes, bs => some (.vBytes bs)
  | .tyString, bs => some (.vString bs)
  | .tyTokenId, bs => some (.vTokenId bs)
  | .tyBool, bs =>
    match bs with
    | [] => some (.vBool false)
    | [0] => some (.vBool false)
    | [1] => some (.vBool true)
    | _ => none
  | .tyOption t, bs =>
    match bs with
    | [] => some .vNone
    | 1 :: rest => do
      let (v, rem) ← decodeNested t rest
      if rem = [] then some (.vSome v) else none
    | _ => none
  | .tyList t, bs => (decodeElems t bs.length bs).map .vList
  | .tyArray n t, bs => do
    let (vs, rest) ← decodeCount t n bs
    if rest = [] then some (.vArray vs) else none
  | .tyTuple ts, bs => do
    let (vs, rest) ← decodeMembers ts bs
    if rest = [] then some (.vTuple vs) else none

/-! ## Round-trip: decoding inverts encoding -/

theorem splitLen_lenPrefix (p rest : List Nat) (hlen : p.length < 256 ^ 4) :
    splitLen (lenPrefix p ++ rest) = some (p, rest) := by
  have hhead : (natToBytesFixed 4 p.length).length = 4 := natToBytesFixed_length _ _
  have happ : lenPrefix p ++ rest = natToBytesFixed 4 p.length ++ (p ++ rest) := by
    rw [lenPrefix, List.append_assoc]
  rw [splitLen, happ]
  have hlen4 : 4 ≤ (natToBytesFixed 4 p.length ++ (p ++ rest)).length := by
    simp [hhead]
  rw [if_pos hlen4]
  have htake4 : (natToBytesFixed 4 p.length ++ (p ++ rest)).take 4 = natToBytesFixed 4 p.length :=
    List.take_left' hhead
  have hdrop4 : (natToBytesFixed 4 p.length ++ (p ++ rest)).drop 4 = p ++ rest :=
    List.drop_left' hhead
  rw [htake4, hdrop4, bytesToNat_natToBytesFixed, Nat.mod_eq_of_lt hlen]
  have hle : p.length ≤ (p ++ rest).length := by simp
  rw [if_pos hle, List.take_left, List.drop_left]

theorem encodeList_length_ge (vs : List Val) (t : Ty)
    (h : wellTypedList vs t = true)
    (hne : ∀ v, v ∈ vs → encodeNested v ≠ []) :
    vs.length ≤ (encodeList vs).length := by
  induction vs with
  | nil => simp [encodeList]
  | cons v vs ih =>
    rw [wellTypedList] at h
    have h1 : encodeNested v ≠ [] := hne v (List.mem_cons_self v vs)
    have h2 : 1 ≤ (encodeNested v).length := by
      cases he : encodeNested v with
      | nil => exact absurd he h1
      | cons b bs => simp
    rw [encodeList]
    simp only [List.length_cons, List.length_append]
    have h3 := ih (by simpa using (Bool.and_elim_right (by simpa using h)))
      (fun v hv => hne v (List.mem_cons_of_mem _ hv))
    omega

theorem natToBytesFixed_ne_nil (w n : Nat) (hw : 1 ≤ w) : natToBytesFixed w n ≠ [] := by
  intro hc
  have hl := natToBytesFixed_length w n
  rw [hc] at hl
  simp at hl
  omega

theorem lenPrefix_ne_nil (p : List Nat) : lenPrefix p ≠ [] := by
  rw [lenPrefix]
  intro hc
  rcases List.append_eq_nil.mp hc with ⟨hc1, _⟩
  exact natToBytesFixed_ne_nil 4 p.length (by omega) hc1

mutual
/-- Positively-sized well-typed values have nonempty nested encodings. -/
theorem encodeNested_ne_nil (v : Val) (t : Ty) (hsp : sizedPos t = true)
    (h : wellTyped v t = true) : encodeNested v ≠ [] := by
  cases v with
  | vU w n =>
    cases t
    case tyU w' =>
      have h' : (((w == w') && decide (1 ≤ w)) && decide (n < 256 ^ w)) = true := h
      simp only [Bool.and_eq_true, beq_iff_eq, decide_eq_true_eq] at h'
      exact natToBytesFixed_ne_nil w n h'.1.2
    all_goals exact Bool.noConfusion h
  | vI w i =>
    cases t
    case tyI w' =>
      have h' : (((w == w') && decide (1 ≤ w)) && decide (inIntRange w i)) = true := h
      simp only [Bool.and_eq_true, beq_iff_eq, decide_eq_true_eq] at h'
      intro hc
      have hceq : intToBytesFixed w i = [] := hc
      have hl := intToBytesFixed_length w i
      rw [hceq] at hl
      simp at hl
      omega
    all_goals exact Bool.noConfusion h
  | vBigUint n =>
    cases t
    case tyBigUint => exact lenPrefix_ne_nil _
    all_goals exact Bool.noConfusion h
  | vBigInt i =>
    cases t
    case tyBigInt => exact lenPrefix_ne_nil _
    all_goals exact Bool.noConfusion h
  | vAddress bs =>
    cases t
    case tyAddress =>
      have h' : ((bs.length == 32) && bs.all (· < 256)) = true := h
      simp only [Bool.and_eq_true, beq_iff_eq] at h'
      intro hc
      have : bs.length = 32 := h'.1
      rw [show encodeNested (Val.vAddress bs) = bs from rfl] at hc
      rw [hc] at this
      simp at this
    all_goals exact Bool.noConfusion h
  | vBytes bs =>
    cases t
    case tyBytes => exact lenPrefix_ne_nil _
    all_goals exact Bool.noConfusion h
  | vString bs =>
    cases t
    case tyString => exact lenPrefix_ne_nil _
    all_goals exact Bool.noConfusion h
  | vTokenId bs =>
    cases t
    case tyTokenId => exact lenPrefix_ne_nil _
    all_goals exact Bool.noConfusion h
  | vBool b =>
    cases t
    case tyBool => simp [encodeNested]
    all_goals exact Bool.noConfusion h
  | vNone =>
    cases t
    case tyOption t => simp [encodeNested]
    all_goals exact Bool.noConfusion h
  | vSome v =>
    cases t
    case tyOption t => simp [encodeNested]
    all_goals exact Bool.noConfusion h
  | vList vs =>
    cases t
    case tyList t => exact lenPrefix_ne_nil _
    all_goals exact Bool.noConfusion h
  | vArray vs =>
    cases t
    case tyArray n t =>
      have hsp' : (decide (1 ≤ n) && sizedPos t) = true := hsp
      simp only [Bool.and_eq_true, decide_eq_true_eq] at hsp'
      have h' : ((vs.length == n) && wellTypedList vs t) = true := h
      simp only [Bool.and_eq_true, beq_iff_eq] at h'
      cases vs with
      | nil =>
        exfalso
        have hn := h'.1
        simp at hn
        omega
      | cons v vs =>
        have hv : (wellTyped v t && wellTypedList vs t) = true := h'.2
        simp only [Bool.and_eq_true] at hv
        rw [show encodeNested (Val.vArray (v :: vs)) = encodeNested v ++ encodeList vs from rfl]
        intro hc
        rcases List.append_eq_nil.mp hc with ⟨hc1, _⟩
        exact encodeNested_ne_nil v t hsp'.2 hv.1 hc1
    all_goals exact Bool.noConfusion h
  | vTuple vs =>
    cases t
    case tyTuple ts =>
      have hsp' : sizedPosAny ts = true := hsp
      have h' : wellTypedZip vs ts = true := h
      rw [show encodeNested (Val.vTuple vs) = encodeList vs from rfl]
      exact encodeList_ne_nil_of_any vs ts hsp' h'
    all_goals exact Bool.noConfusion h
termination_by (sizeOf v, 0)
/-- A tuple with at least one positively-sized component type has a nonempty
member concatenation. -/
theorem encodeList_ne_nil_of_any (vs : List Val) (ts : List Ty)
    (hsp : sizedPosAny ts = true) (h : wellTypedZip vs ts = true) :
    encodeList vs ≠ [] := by
  cases ts with
  | nil => exact Bool.noConfusion hsp
  | cons t ts =>
    cases vs with
    | nil => exact Bool.noConfusion h
    | cons v vs =>
      have h' : (wellTyped v t && wellTypedZip vs ts) = true := h
      simp only [Bool.and_eq_true] at h'
      have hsp' : (sizedPos t || sizedPosAny ts) = true := hsp
      simp only [Bool.or_eq_true] at hsp'
      rw [show encodeList (v :: vs) = encodeNested v ++ encodeList vs from rfl]
      intro hc
      rcases List.append_eq_nil.mp hc with ⟨hc1, hc2⟩
      rcases hsp' with hs | hs
      · exact encodeNested_ne_nil v t hs h'.1 hc1
      · exact encodeList_ne_nil_of_any vs ts hs h'.2 hc2
termination_by (sizeOf vs, 1)
end


theorem wellTypedList_mem (vs : List Val) (t : Ty) (h : wellTypedList vs t = true)
    (v : Val) (hv : v ∈ vs) : wellTyped v t = true := by
  induction vs with
  | nil => cases hv
  | cons v0 vs ih =>
    have h' : (wellTyped v0 t && wellTypedList vs t) = true := h
    simp only [Bool.and_eq_true] at h'
    rcases List.mem_cons.mp hv with he | hm
    · exact he ▸ h'.1
    · exact ih h'.2 hm

mutual
/-- Nested decoding inverts nested encoding, leaving any remainder intact. -/
theorem decodeNested_encode (v : Val) (t : Ty) (h : wellTyped v t = true)
    (rest : List Nat) : decodeNested t (encodeNested v ++ rest) = some (v, rest) := by
  cases v with
  | vU w n =>
    cases t
    case tyU w' =>
      have h' : (((w == w') && decide (1 ≤ w)) && decide (n < 256 ^ w)) = true := h
      simp only [Bool.and_eq_true, beq_iff_eq, decide_eq_true_eq] at h'
      obtain ⟨⟨rfl, _hw⟩, hn⟩ := h'
      have hlen : (natToBytesFixed w n).length = w := natToBytesFixed_length w n
      show decodeNested (.tyU w) (natToBytesFixed w n ++ rest) = some (.vU w n, rest)
      simp only [decodeNested]
      rw [if_pos (by simp [hlen]), List.take_left' hlen, List.drop_left' hlen,
        bytesToNat_natToBytesFixed, Nat.mod_eq_of_lt hn]
    all_goals exact Bool.noConfusion h
  | vI w i =>
    cases t
    case tyI w' =>
      have h' : (((w == w') && decide (1 ≤ w)) && decide (inIntRange w i)) = true := h
      simp only [Bool.and_eq_true, beq_iff_eq, decide_eq_true_eq] at h'
      obtain ⟨⟨rfl, hw⟩, hr⟩ := h'
      have hlen : (intToBytesFixed w i).length = w := intToBytesFixed_length w i
      show decodeNested (.tyI w) (intToBytesFixed w i ++ rest) = some (.vI w i, rest)
      simp only [decodeNested]
      rw [if_pos (by simp [hlen]), List.take_left' hlen, List.drop_left' hlen,
        intFromBytes_intToBytesFixed w i hw hr]
    all_goals exact Bool.noConfusion h
  | vBigUint n =>
    cases t
    case tyBigUint =>
      have h' : decide ((natToBytesMin n).length < 256 ^ 4) = true := h
      simp only [decide_eq_true_eq] at h'
      show decodeNested .tyBigUint (lenPrefix (natToBytesMin n) ++ rest)
          = some (.vBigUint n, rest)
      simp only [decodeNested]
      rw [splitLen_lenPrefix _ _ h']
      simp [bytesToNat_natToBytesMin]
    all_goals exact Bool.noConfusion h
  | vBigInt i =>
    cases t
    case tyBigInt =>
      have h' : decide ((intToBytesMin i).length < 256 ^ 4) = true := h
      simp only [decide_eq_true_eq] at h'
      show decodeNested .tyBigInt (lenPrefix (intToBytesMin i) ++ rest)
          = some (.vBigInt i, rest)
      simp only [decodeNested]
      rw [splitLen_lenPrefix _ _ h']
      simp [intFromBytes_intToBytesMin]
    all_goals exact Bool.noConfusion h
  | vAddress bs =>
    cases t
    case tyAddress =>
      have h' : ((bs.length == 32) && bs.all (· < 256)) = true := h
      simp only [Bool.and_eq_true, beq_iff_eq] at h'
      have hlen := h'.1
      show decodeNested .tyAddress (bs ++ rest) = some (.vAddress bs, rest)
      simp only [decodeNested]
      rw [if_pos (by simp [hlen]), List.take_left' hlen, List.drop_left' hlen]
    all_goals exact Bool.noConfusion h
  | vBytes bs =>
    cases t
    case tyBytes =>
      have h' : (decide (bs.length < 256 ^ 4) && bs.all (· < 256)) = true := h
      simp only [Bool.and_eq_true, decide_eq_true_eq] at h'
      show decodeNested .tyBytes (lenPrefix bs ++ rest) = some (.vBytes bs, rest)
      simp only [decodeNested]
      rw [splitLen_lenPrefix _ _ h'.1]
      rfl
    all_goals exact Bool.noConfusion h
  | vString bs =>
    cases t
    case tyString =>
      have h' : (decide (bs.length < 256 ^ 4) && bs.all (· < 256)) = true := h
      simp only [Bool.and_eq_true, decide_eq_true_eq] at h'
      show decodeNested .tyString (lenPrefix bs ++ rest) = some (.vString bs, rest)
      simp only [decodeNested]
      rw [splitLen_lenPrefix _ _ h'.1]
      rfl
    all_goals exact Bool.noConfusion h
  | vTokenId bs =>
    cases t
    case tyTokenId =>
      have h' : (decide (bs.length < 256 ^ 4) && bs.all (· < 256)) = true := h
      simp only [Bool.and_eq_true, decide_eq_true_eq] at h'
      show decodeNested .tyTokenId (lenPrefix bs ++ rest) = some (.vTokenId bs, rest)
      simp only [decodeNested]
      rw [splitLen_lenPrefix _ _ h'.1]
      rfl
    all_goals exact Bool.noConfusion h
  | vBool b =>
    cases t
    case tyBool =>
      cases b <;> simp [encodeNested, decodeNested]
    all_goals exact Bool.noConfusion h
  | vNone =>
    cases t
    case tyOption t =>
      show decodeNested (.tyOption t) (0 :: rest) = some (.vNone, rest)
      simp [decodeNested]
    all_goals exact Bool.noConfusion h
  | vSome v =>
    cases t
    case tyOption t =>
      have h' : wellTyped v t = true := h
      show decodeNested (.tyOption t) (1 :: (encodeNested v ++ rest))
          = some (.vSome v, rest)
      simp only [decodeNested]
      rw [decodeNested_encode v t h' rest]
      rfl
    all_goals exact Bool.noConfusion h
  | vList vs =>
    cases t
    case tyList t =>
      have h' : ((sizedPos t && wellTypedList vs t)
          && decide ((encodeList vs).length < 256 ^ 4)) = true := h
      simp only [Bool.and_eq_true, decide_eq_true_eq] at h'
      obtain ⟨⟨hsp, hwl⟩, hhead⟩ := h'
      show decodeNested (.tyList t) (lenPrefix (encodeList vs) ++ rest)
          = some (.vList vs, rest)
      simp only [decodeNested]
      rw [splitLen_lenPrefix _ _ hhead]
      have hfuel : vs.length ≤ (encodeList vs).length :=
        encodeList_length_ge vs t hwl
          (fun v hv => encodeNested_ne_nil v t hsp (wellTypedList_mem vs t hwl v hv))
      rw [Option.bind_eq_bind]
      simp only [Option.some_bind]
      rw [decodeElems_encode vs t hsp hwl (encodeList vs).length hfuel]
      rfl
    all_goals exact Bool.noConfusion h
  | vArray vs =>
    cases t
    case tyArray n t =>
      have h' : ((vs.length == n) && wellTypedList vs t) = true := h
      simp only [Bool.and_eq_true, beq_iff_eq] at h'
      obtain ⟨hn, hwl⟩ := h'
      show decodeNested (.tyArray n t) (encodeList vs ++ rest) = some (.vArray vs, rest)
      simp only [decodeNested]
      rw [← hn, decodeCount_encode vs t hwl rest]
      rfl
    all_goals exact Bool.noConfusion h
  | vTuple vs =>
    cases t
    case tyTuple ts =>
      have h' : wellTypedZip vs ts = true := h
      show decodeNested (.tyTuple ts) (encodeList vs ++ rest) = some (.vTuple vs, rest)
      simp only [decodeNested]
      rw [decodeMembers_encode vs ts h' rest]
      rfl
    all_goals exact Bool.noConfusion h
termination_by (sizeOf v, 0)
/-- Decoding elements from exactly the concatenation of their encodings
recovers the element list (given enough fuel, e.g. the payload length). -/
theorem decodeElems_encode (vs : List Val) (t : Ty) (hsp : sizedPos t = true)
    (h : wellTypedList vs t = true) (fuel : Nat) (hf : vs.length ≤ fuel) :
    decodeElems t fuel (encodeList vs) = some vs := by
  cases vs with
  | nil =>
    show decodeElems t fuel [] = some []
    cases fuel <;> simp [decodeElems]
  | cons v vs =>
    have h' : (wellTyped v t && wellTypedList vs t) = true := h
    simp only [Bool.and_eq_true] at h'
    obtain ⟨hv, hvs⟩ := h'
    have hne : encodeNested v ≠ [] := encodeNested_ne_nil v t hsp hv
    obtain ⟨fuel, rfl⟩ : ∃ f, fuel = f + 1 := by
      rcases fuel with _ | f
      · exact absurd hf (by simp)
      · exact ⟨f, rfl⟩
    show decodeElems t (fuel + 1) (encodeNested v ++ encodeList vs) = some (v :: vs)
    obtain ⟨b, bs, hb⟩ : ∃ b bs, encodeNested v = b :: bs := by
      rcases hev : encodeNested v with _ | ⟨b, bs⟩
      · exact absurd hev hne
      · exact ⟨b, bs, rfl⟩
    rw [hb]
    simp only [List.cons_append, decodeElems]
    have hdec := decodeNested_encode v t hv (encodeList vs)
    rw [hb] at hdec
    simp only [List.cons_append] at hdec
    rw [hdec]
    simp only [Option.bind_eq_bind, Option.some_bind]
    have hprog : (encodeList vs).length < (b :: (bs ++ encodeList vs)).length := by
      simp
      omega
    rw [if_pos (by simpa using hprog)]
    rw [decodeElems_encode vs t hsp hvs fuel (by simpa using hf)]
    rfl
termination_by (sizeOf vs, 1)
/-- Decoding exactly `vs.length` members from the concatenation of their
encodings recovers the members and the remainder. -/
theorem decodeCount_encode (vs : List Val) (t : Ty) (h : wellTypedList vs t = true)
    (rest : List Nat) :
    decodeCount t vs.length (encodeList vs ++ rest) = some (vs, rest) := by
  cases vs with
  | nil =>
    show decodeCount t 0 rest = some ([], rest)
    simp [decodeCount]
  | cons v vs =>
    have h' : (wellTyped v t && wellTypedList vs t) = true := h
    simp only [Bool.and_eq_true] at h'
    obtain ⟨hv, hvs⟩ := h'
    show decodeCount t (vs.length + 1) ((encodeNested v ++ encodeList vs) ++ rest)
        = some (v :: vs, rest)
    rw [List.append_assoc]
    simp only [decodeCount]
    rw [decodeNested_encode v t hv (encodeList vs ++ rest)]
    simp only [Option.bind_eq_bind, Option.some_bind]
    rw [decodeCount_encode vs t hvs rest]
    rfl
termination_by (sizeOf vs, 1)
/-- Decoding one member per component type from the concatenation of the
members' encodings recovers the members and the remainder. -/
theorem decodeMembers_encode (vs : List Val) (ts : List Ty)
    (h : wellTypedZip vs ts = true) (rest : List Nat) :
    decodeMembers ts (encodeList vs ++ rest) = some (vs, rest) := by
  cases vs with
  | nil =>
    cases ts with
    | nil =>
      show decodeMembers [] rest = some ([], rest)
      simp [decodeMembers]
    | cons t ts => exact Bool.noConfusion h
  | cons v vs =>
    cases ts with
    | nil => exact Bool.noConfusion h
    | cons t ts =>
      have h' : (wellTyped v t && wellTypedZip vs ts) = true := h
      simp only [Bool.and_eq_true] at h'
      obtain ⟨hv, hvs⟩ := h'
      show decodeMembers (t :: ts) ((encodeNested v ++ encodeList vs) ++ rest)
          = some (v :: vs, rest)
      rw [List.append_assoc]
      simp only [decodeMembers]
      rw [decodeNested_encode v t hv (encodeList vs ++ rest)]
      simp only [Option.bind_eq_bind, Option.some_bind]
      rw [decodeMembers_encode vs ts hvs rest]
      rfl
termination_by (sizeOf vs, 1)
end

/-- Top-level decoding inverts top-level encoding. -/
theorem decodeTopLevel_encode (v : Val) (t : Ty) (h : wellTyped v t = true) :
    decodeTopLevel t (encodeTopLevel v) = some v := by
  cases v with
  | vU w n =>
    cases t
    case tyU w' =>
      have h' : (((w == w') && decide (1 ≤ w)) && decide (n < 256 ^ w)) = true := h
      simp only [Bool.and_eq_true, beq_iff_eq, decide_eq_true_eq] at h'
      obtain ⟨⟨rfl, _hw⟩, hn⟩ := h'
      show decodeTopLevel (.tyU w) (natToBytesMin n) = some (.vU w n)
      simp only [decodeTopLevel]
      rw [if_pos (natToBytesMin_length_le n w hn), bytesToNat_natToBytesMin]
    all_goals exact Bool.noConfusion h
  | vI w i =>
    cases t
    case tyI w' =>
      have h' : (((w == w') && decide (1 ≤ w)) && decide (inIntRange w i)) = true := h
      simp only [Bool.and_eq_true, beq_iff_eq, decide_eq_true_eq] at h'
      obtain ⟨⟨rfl, hw⟩, hr⟩ := h'
      show decodeTopLevel (.tyI w) (intToBytesMin i) = some (.vI w i)
      simp only [decodeTopLevel]
      rw [if_pos (intToBytesMin_length_le i w hw hr), intFromBytes_intToBytesMin]
    all_goals exact Bool.noConfusion h
  | vBigUint n =>
    cases t
    case tyBigUint =>
      show decodeTopLevel .tyBigUint (natToBytesMin n) = some (.vBigUint n)
      simp [decodeTopLevel, bytesToNat_natToBytesMin]
    all_goals exact Bool.noConfusion h
  | vBigInt i =>
    cases t
    case tyBigInt =>
      show decodeTopLevel .tyBigInt (intToBytesMin i) = some (.vBigInt i)
      simp [decodeTopLevel, intFromBytes_intToBytesMin]
    all_goals exact Bool.noConfusion h
  | vAddress bs =>
    cases t
    case tyAddress =>
      have h' : ((bs.length == 32) && bs.all (· < 256)) = true := h
      simp only [Bool.and_eq_true, beq_iff_eq] at h'
      show decodeTopLevel .tyAddress bs = some (.vAddress bs)
      simp [decodeTopLevel, h'.1]
    all_goals exact Bool.noConfusion h
  | vBytes bs =>
    cases t
    case tyBytes => rfl
    all_goals exact Bool.noConfusion h
  | vString bs =>
    cases t
    case tyString => rfl
    all_goals exact Bool.noConfusion h
  | vTokenId bs =>
    cases t
    case tyTokenId => rfl
    all_goals exact Bool.noConfusion h
  | vBool b =>
    cases t
    case tyBool => cases b <;> rfl
    all_goals exact Bool.noConfusion h
  | vNone =>
    cases t
    case tyOption t => rfl
    all_goals exact Bool.noConfusion h
  | vSome v =>
    cases t
    case tyOption t =>
      have h' : wellTyped v t = true := h
      show decodeTopLevel (.tyOption t) (1 :: encodeNested v) = some (.vSome v)
      simp only [decodeTopLevel]
      have hdec := decodeNested_encode v t h' []
      rw [List.append_nil] at hdec
      rw [hdec]
      rfl
    all_goals exact Bool.noConfusion h
  | vList vs =>
    cases t
    case tyList t =>
      have h' : ((sizedPos t && wellTypedList vs t)
          && decide ((encodeList vs).length < 256 ^ 4)) = true := h
      simp only [Bool.and_eq_true, decide_eq_true_eq] at h'
      obtain ⟨⟨hsp, hwl⟩, _⟩ := h'
      show decodeTopLevel (.tyList t) (encodeList vs) = some (.vList vs)
      simp only [decodeTopLevel]
      have hfuel : vs.length ≤ (encodeList vs).length :=
        encodeList_length_ge vs t hwl
          (fun v hv => encodeNested_ne_nil v t hsp (wellTypedList_mem vs t hwl v hv))
      rw [decodeElems_encode vs t hsp hwl (encodeList vs).length hfuel]
      rfl
    all_goals exact Bool.noConfusion h
  | vArray vs =>
    cases t
    case tyArray n t =>
      have h' : ((vs.length == n) && wellTypedList vs t) = true := h
      simp only [Bool.and_eq_true, beq_iff_eq] at h'
      obtain ⟨hn, hwl⟩ := h'
      show decodeTopLevel (.tyArray n t) (encodeList vs) = some (.vArray vs)
      simp only [decodeTopLevel]
      have hdec := decodeCount_encode vs t hwl []
      rw [List.append_nil] at hdec
      rw [← hn, hdec]
      rfl
    all_goals exact Bool.noConfusion h
  | vTuple vs =>
    cases t
    case tyTuple ts =>
      have h' : wellTypedZip vs ts = true := h
      show decodeTopLevel (.tyTuple ts) (encodeList vs) = some (.vTuple vs)
      simp only [decodeTopLevel]
      have hdec := decodeMembers_encode vs ts h' []
      rw [List.append_nil] at hdec
      rw [hdec]
      rfl
    all_goals exact Bool.noConfusion h

/-! ## The argument serializer and the `@`-separated payload -/

/-- One hex digit (lower-case, as produced by `Buffer.toString("hex")`). -/
def hexDigit : Nat → Char
  | 0 => '0' | 1 => '1' | 2 => '2' | 3 => '3' | 4 => '4'
  | 5 => '5' | 6 => '6' | 7 => '7' | 8 => '8' | 9 => '9'
  | 10 => 'a' | 11 => 'b' | 12 => 'c' | 13 => 'd' | 14 => 'e' | 15 => 'f'
  | _ + 16 => '0'

/-- Hex rendering of a byte sequence, two lower-case digits per byte. -/
def bytesToHex (bs : List Nat) : List Char :=
  (bs.map (fun b => [hexDigit (b / 16), hexDigit (b % 16)])).flatten

/-- Modelled from the spec (§4.4): one positional argument handed to the
argument serializer — either a single typed value, a (multi-value) composite
of K component values, a trailing variadic of single values, or a trailing
variadic of K-component composites (one group per repetition). -/
inductive ArgVal where
  | single (v : Val)
  | composite (vs : List Val)
  | variadicSingle (t : Ty) (vs : List Val)
  | variadicComposite (ts : List Ty) (groups : List (List Val))

/-- Modelled from the spec (§4.4): the hex strings contributed by one
positional argument — one string for a single value (top-level encoding), one
per component for a composite, one per element for a variadic, and K per
repetition for a variadic of K-component composites. -/
def argToStrings : ArgVal → List (List Char)
  | .single v => [bytesToHex (encodeTopLevel v)]
  | .composite vs => vs.map (fun v => bytesToHex (encodeTopLevel v))
  | .variadicSingle _ vs => vs.map (fun v => bytesToHex (encodeTopLevel v))
  | .variadicComposite _ groups =>
    (groups.map (fun g => g.map (fun v => bytesToHex (encodeTopLevel v)))).flatten

/-- Modelled from the spec (§4.4):
`valuesToStrings(TypedValue[]) -> string[]` produces one hex string per
positional argument using top-level encoding, except that a trailing variadic
or multi-value argument expands into multiple hex strings. -/
def valuesToStrings (args : List ArgVal) : List (List Char) :=
  (args.map argToStrings).flatten

/-- `TokenOperationsFactory.buildTransactionPayload`: the transaction payload
is the data parts joined by the single-character separator
`ARGUMENTS_SEPARATOR = "@"` (`src/abi/query.ts` constants). -/
def buildTransactionPayload (parts : List (List Char)) : List Char :=
  match parts with
  | [] => []
  | [p] => p
  | p :: ps => p ++ '@' :: buildTransactionPayload ps

/-- JavaScript's `payload.split("@")`: split at every separator occurrence
(the empty string splits into one empty field). -/
def splitPayload : List Char → List (List Char)
  | [] => [[]]
  | c :: rest =>
    if c = '@' then [] :: splitPayload rest
    else
      match splitPayload rest with
      | p :: ps => (c :: p) :: ps
      | [] => [[c]]

theorem hexDigit_ne_sep (d : Nat) : hexDigit d ≠ '@' := by
  unfold hexDigit
  split <;> decide

theorem bytesToHex_no_sep (bs : List Nat) : '@' ∉ bytesToHex bs := by
  intro hmem
  rw [bytesToHex] at hmem
  rcases List.mem_flatten.mp hmem with ⟨l, hl, hcl⟩
  rcases List.mem_map.mp hl with ⟨b, _, rfl⟩
  have h1 : '@' = hexDigit (b / 16) ∨ '@' = hexDigit (b % 16) := by
    simpa using hcl
  rcases h1 with h1 | h1
  · exact hexDigit_ne_sep (b / 16) h1.symm
  · exact hexDigit_ne_sep (b % 16) h1.symm

theorem splitPayload_single (p : List Char) (hp : '@' ∉ p) :
    splitPayload p = [p] := by
  induction p with
  | nil => rfl
  | cons c p ih =>
    have hc : c ≠ '@' := fun he => hp (he ▸ List.mem_cons_self c p)
    have hp' : '@' ∉ p := fun hm => hp (List.mem_cons_of_mem c hm)
    simp only [splitPayload]
    rw [if_neg hc, ih hp']

theorem splitPayload_append_sep (p r : List Char) (hp : '@' ∉ p) :
    splitPayload (p ++ '@' :: r) = p :: splitPayload r := by
  induction p with
  | nil => rfl
  | cons c p ih =>
    have hc : c ≠ '@' := fun he => hp (he ▸ List.mem_cons_self c p)
    have hp' : '@' ∉ p := fun hm => hp (List.mem_cons_of_mem c hm)
    rw [List.cons_append]
    simp only [splitPayload]
    rw [if_neg hc, ih hp']

/-- Splitting the joined payload at `@` recovers the (nonempty) parts list,
provided no part contains the separator. -/
theorem splitPayload_buildTransactionPayload (parts : List (List Char))
    (hne : parts ≠ []) (hsep : ∀ p, p ∈ parts → '@' ∉ p) :
    splitPayload (buildTransactionPayload parts) = parts := by
  induction parts with
  | nil => exact absurd rfl hne
  | cons p ps ih =>
    cases ps with
    | nil =>
      rw [buildTransactionPayload]
      exact splitPayload_single p (hsep p (List.mem_cons_self p []))
    | cons q qs =>
      rw [show buildTransactionPayload (p :: q :: qs)
          = p ++ '@' :: buildTransactionPayload (q :: qs) from rfl]
      rw [splitPayload_append_sep p _ (hsep p (List.mem_cons_self p (q :: qs)))]
      rw [ih (by simp) (fun r hr => hsep r (List.mem_cons_of_mem p hr))]

/-! ## Claim C1: codec round-trip -/

/-- **C1.** For every Type in the catalogue and every valid value of that
Type, decoding the encoding of the value yields the value back, in both
top-level and nested encoding modes:
`decode(mode, encode(mode, value)) == value`. -/
theorem c1_decode_encode_roundtrip (v : Val) (t : Ty) (h : wellTyped v t = true) :
    decodeTopLevel t (encodeTopLevel v) = some v ∧
      decodeNested t (encodeNested v) = some (v, []) := by
  refine ⟨decodeTopLevel_encode v t h, ?_⟩
  have hd := decodeNested_encode v t h []
  rwa [List.append_nil] at hd

/-- Witness for C1 at the concrete value `List<Option<u32>>` ∋ `[Some 7]`. -/
theorem c1_roundtrip_witness :
    wellTyped (.vList [.vSome (.vU 4 7)]) (.tyList (.tyOption (.tyU 4))) = true ∧
      (decodeTopLevel (.tyList (.tyOption (.tyU 4)))
          (encodeTopLevel (.vList [.vSome (.vU 4 7)]))
        = some (.vList [.vSome (.vU 4 7)]) ∧
       decodeNested (.tyList (.tyOption (.tyU 4)))
          (encodeNested (.vList [.vSome (.vU 4 7)]))
        = some (.vList [.vSome (.vU 4 7)], [])) :=
  ⟨by decide, c1_decode_encode_roundtrip _ _ (by decide)⟩

/-! ## Claims C2 and C3: the argument serializer and the payload -/

theorem mem_argToStrings_hex (a : ArgVal) (p : List Char) (h : p ∈ argToStrings a) :
    ∃ bs, p = bytesToHex bs := by
  cases a with
  | single v =>
    rcases List.mem_singleton.mp h with rfl
    exact ⟨encodeTopLevel v, rfl⟩
  | composite vs =>
    rcases List.mem_map.mp h with ⟨v, _, rfl⟩
    exact ⟨encodeTopLevel v, rfl⟩
  | variadicSingle t vs =>
    rcases List.mem_map.mp h with ⟨v, _, rfl⟩
    exact ⟨encodeTopLevel v, rfl⟩
  | variadicComposite ts groups =>
    rcases List.mem_flatten.mp h with ⟨l, hl, hpl⟩
    rcases List.mem_map.mp hl with ⟨g, _, rfl⟩
    rcases List.mem_map.mp hpl with ⟨v, _, rfl⟩
    exact ⟨encodeTopLevel v, rfl⟩

theorem mem_valuesToStrings_hex (args : List ArgVal) (p : List Char)
    (h : p ∈ valuesToStrings args) : ∃ bs, p = bytesToHex bs := by
  rw [valuesToStrings] at h
  rcases List.mem_flatten.mp h with ⟨l, hl, hpl⟩
  rcases List.mem_map.mp hl with ⟨a, _, rfl⟩
  exact mem_argToStrings_hex a p hpl

/-- **C2 (counterexample).** As literally stated — for *every* list of typed
values the split of the joined payload recovers the argument strings — the
claim fails at the empty argument list: the serializer yields no strings, the
joined payload is the empty string, and splitting the empty string at `@`
yields one empty field (as JavaScript's `"".split("@")` does), not an empty
list. -/
theorem c2_counterexample_empty_args :
    splitPayload (buildTransactionPayload (valuesToStrings []))
      ≠ valuesToStrings [] := by
  decide

/-- **C2 (amended).** For every list of typed values, each hex argument
string produced by the argument serializer (`valuesToStrings`) contains no
`@` character, and — whenever the produced string list is nonempty (in the
transaction payload the data parts always begin with a function name, so the
joined list is never empty) — the payload built by joining those strings with
the single separator `@` splits back at `@` into exactly the original
argument strings. -/
theorem c2_separator_free_and_split_roundtrip (args : List ArgVal) :
    (∀ p, p ∈ valuesToStrings args → '@' ∉ p) ∧
      (valuesToStrings args ≠ [] →
        splitPayload (buildTransactionPayload (valuesToStrings args))
          = valuesToStrings args) := by
  have hsep : ∀ p, p ∈ valuesToStrings args → '@' ∉ p := by
    intro p hp
    rcases mem_valuesToStrings_hex args p hp with ⟨bs, rfl⟩
    exact bytesToHex_no_sep bs
  exact ⟨hsep, fun hne => splitPayload_buildTransactionPayload _ hne hsep⟩

/-- Witness for C2 at the concrete argument list `[u32(7)]` (payload `"07"`). -/
theorem c2_separator_witness :
    valuesToStrings [ArgVal.single (.vU 4 7)] ≠ [] ∧
      splitPayload (buildTransactionPayload (valuesToStrings [ArgVal.single (.vU 4 7)]))
        = valuesToStrings [ArgVal.single (.vU 4 7)] :=
  ⟨by decide,
   (c2_separator_free_and_split_roundtrip [ArgVal.single (.vU 4 7)]).2 (by decide)⟩

theorem length_flatten_map_const (groups : List (List Val)) (k : Nat)
    (f : Val → List Char) (h : ∀ g, g ∈ groups → g.length = k) :
    ((groups.map (fun g => g.map f)).flatten).length = groups.length * k := by
  induction groups with
  | nil => simp
  | cons g gs ih =>
    simp only [List.map_cons, List.flatten_cons, List.length_append, List.length_map,
      List.length_cons]
    rw [h g (List.mem_cons_self g gs), ih (fun g' hg' => h g' (List.mem_cons_of_mem g hg'))]
    ring

/-- **C3.** A trailing variadic argument expands into one independent hex
string per element (top-level encoded) rather than one combined string; a
variadic of K-component composites contributes K strings per repetition; and
serializing `[u32(1), u32(2), u32(3)]` as a trailing `Variadic<u32>` yields
exactly the three hex strings `"01"`, `"02"`, `"03"`. -/
theorem c3_variadic_expansion (pre : List ArgVal) (t : Ty) (vs : List Val) :
    (valuesToStrings (pre ++ [.variadicSingle t vs])
        = valuesToStrings pre ++ vs.map (fun v => bytesToHex (encodeTopLevel v))) ∧
    (∀ (ts : List Ty) (groups : List (List Val)),
        (∀ g, g ∈ groups → g.length = ts.length) →
        (argToStrings (.variadicComposite ts groups)).length
          = groups.length * ts.length) ∧
    valuesToStrings [.variadicSingle (.tyU 4) [.vU 4 1, .vU 4 2, .vU 4 3]]
      = [['0', '1'], ['0', '2'], ['0', '3']] := by
  refine ⟨?_, ?_, by decide⟩
  · rw [valuesToStrings, valuesToStrings, List.map_append, List.flatten_append]
    simp [argToStrings]
  · intro ts groups h
    rw [show argToStrings (.variadicComposite ts groups)
        = (groups.map (fun g => g.map (fun v => bytesToHex (encodeTopLevel v)))).flatten
        from rfl]
    exact length_flatten_map_const groups ts.length _ h

/-- Witness for C3: two repetitions of the two-component composite
`Multi<u32, bytes>` expand into four strings. -/
theorem c3_variadic_witness :
    (∀ g, g ∈ [[Val.vU 4 1, Val.vBytes [7]], [Val.vU 4 2, Val.vBytes [8]]] →
        g.length = [Ty.tyU 4, Ty.tyBool].length) ∧
      (argToStrings (.variadicComposite [Ty.tyU 4, Ty.tyBool]
          [[Val.vU 4 1, Val.vBytes [7]], [Val.vU 4 2, Val.vBytes [8]]])).length
        = 2 * 2 :=
  ⟨by decide,
   (c3_variadic_expansion [] (.tyU 4) []).2.1 [Ty.tyU 4, Ty.tyBool]
     [[Val.vU 4 1, Val.vBytes [7]], [Val.vU 4 2, Val.vBytes [8]]] (by decide)⟩

/-! ## Claim C5: numeric zero at top level -/

/-- **C5.** For every numeric type of the catalogue — fixed-width unsigned
and signed integers of any declared width, `BigUint` and `BigInt` — the value
zero encodes at top level to the empty byte sequence (hence the empty hex
string as a data part), and decoding an empty buffer at top level yields
zero. -/
theorem c5_numeric_zero_empty (w : Nat) :
    (encodeTopLevel (.vU w 0) = [] ∧ encodeTopLevel (.vI w 0) = [] ∧
       encodeTopLevel (.vBigUint 0) = [] ∧ encodeTopLevel (.vBigInt 0) = []) ∧
    (decodeTopLevel (.tyU w) [] = some (.vU w 0) ∧
       decodeTopLevel (.tyI w) [] = some (.vI w 0) ∧
       decodeTopLevel .tyBigUint [] = some (.vBigUint 0) ∧
       decodeTopLevel .tyBigInt [] = some (.vBigInt 0)) ∧
    bytesToHex [] = [] := by
  refine ⟨⟨rfl, rfl, rfl, rfl⟩, ⟨?_, ?_, rfl, rfl⟩, rfl⟩
  · show decodeTopLevel (.tyU w) [] = some (.vU w 0)
    simp [decodeTopLevel, bytesToNat_nil]
  · show decodeTopLevel (.tyI w) [] = some (.vI w 0)
    simp [decodeTopLevel, intFromBytes_nil]

/-! ## The type-expression parser -/

/-- Modelled from the spec (§3 "TypeDescriptor"): a name together with its
ordered nested type parameters, as produced by the parser. -/
inductive TDesc where
  | node (name : List Char) (params : List TDesc)

/-- Characters an identifier may consist of (letters, digits, underscore). -/
def isIdentChar (c : Char) : Bool :=
  c.isAlpha || c.isDigit || c = '_'

/-- Whitespace around identifiers and separators is insignificant (§4.1). -/
def skipWs (s : List Char) : List Char :=
  s.dropWhile (· = ' ')

mutual
/-- Modelled from the spec (§4.1): recursive-descent parser for the grammar
`Identifier` optionally followed by `<` comma-separated nested expressions
`>`, tolerating a trailing comma before a closing `>`; whitespace is
insignificant; fails on unbalanced brackets or an empty identifier.  The fuel
argument bounds the recursion depth (one identifier is consumed before each
descent, so the input length suffices). -/
def parseExprF : Nat → List Char → Option (TDesc × List Char)
  | 0, _ => none
  | fuel + 1, s =>
    let s1 := skipWs s
    let name := s1.takeWhile isIdentChar
    if name.isEmpty then none
    else
      match skipWs (s1.dropWhile isIdentChar) with
      | [] => some (.node name [], [])
      | c :: s3 =>
        if c = '<' then
          match parseArgsF fuel s3 with
          | some (args, s4) => some (.node name args, s4)
          | none => none
        else some (.node name [], c :: s3)
/-- Parse a nonempty `>`-terminated comma-separated parameter list, accepting
one optional trailing comma right before the closing `>` (§4.1). -/
def parseArgsF : Nat → List Char → Option (List TDesc × List Char)
  | 0, _ => none
  | fuel + 1, s =>
    match parseExprF fuel s with
    | none => none
    | some (d, s1) =>
      match skipWs s1 with
      | [] => none
      | c :: s2 =>
        if c = ',' then
          match skipWs s2 with
          | [] => none
          | c2 :: s3 =>
            if c2 = '>' then some ([d], s3)
            else
              match parseArgsF fuel s2 with
              | some (ds, s4) => some (d :: ds, s4)
              | none => none
        else if c = '>' then some ([d], s2)
        else none
end

/-- `TypeExpressionParser.parse`: parse a whole type-expression string,
requiring the input to be consumed entirely. -/
def parseTypeExpr (s : List Char) : Option TDesc :=
  match parseExprF (s.length + 1) s with
  | some (d, rest) => if skipWs rest = [] then some d else none
  | none => none

mutual
/-- Render a descriptor in the observed convention with a trailing comma
before every closing `>` (e.g. `MultiResult<i32,bytes,>`). -/
def printTrailing : TDesc → List Char
  | .node name [] => name
  | .node name (p :: ps) => name ++ '<' :: printArgsTrailing (p :: ps)
def printArgsTrailing : List TDesc → List Char
  | [] => ['>']
  | [d] => printTrailing d ++ [',', '>']
  | d :: ds => printTrailing d ++ ',' :: printArgsTrailing ds
end

mutual
/-- A descriptor whose names are nonempty identifier strings (every
descriptor the parser itself can produce is of this shape). -/
def wfDesc : TDesc → Bool
  | .node name params => !name.isEmpty && name.all isIdentChar && wfDescList params
def wfDescList : List TDesc → Bool
  | [] => true
  | d :: ds => wfDesc d && wfDescList ds
end

theorem isIdentChar_ne_space (c : Char) (h : isIdentChar c = true) : c ≠ ' ' := by
  intro he
  subst he
  exact Bool.noConfusion h

theorem isIdentChar_ne_markers (c : Char) (h : isIdentChar c = true) :
    c ≠ '<' ∧ c ≠ '>' ∧ c ≠ ',' := by
  refine ⟨?_, ?_, ?_⟩ <;> (intro he; subst he; exact Bool.noConfusion h)

theorem skipWs_cons_of_ne (c : Char) (s : List Char) (h : c ≠ ' ') :
    skipWs (c :: s) = c :: s := by
  rw [skipWs, List.dropWhile_cons]
  simp [h]

theorem takeWhile_ident_append (name rest : List Char)
    (hn : name.all isIdentChar = true)
    (hr : ∀ c cs, rest = c :: cs → isIdentChar c = false) :
    (name ++ rest).takeWhile isIdentChar = name := by
  induction name with
  | nil =>
    cases rest with
    | nil => rfl
    | cons c cs =>
      simp only [List.nil_append, List.takeWhile_cons, hr c cs rfl]
      simp
  | cons c name ih =>
    have h' : (isIdentChar c && name.all isIdentChar) = true := hn
    simp only [Bool.and_eq_true] at h'
    simp only [List.cons_append, List.takeWhile_cons, h'.1]
    rw [ih h'.2]
    simp

theorem dropWhile_ident_append (name rest : List Char)
    (hn : name.all isIdentChar = true)
    (hr : ∀ c cs, rest = c :: cs → isIdentChar c = false) :
    (name ++ rest).dropWhile isIdentChar = rest := by
  induction name with
  | nil =>
    cases rest with
    | nil => rfl
    | cons c cs =>
      simp only [List.nil_append, List.dropWhile_cons, hr c cs rfl]
      simp
  | cons c name ih =>
    have h' : (isIdentChar c && name.all isIdentChar) = true := hn
    simp only [Bool.and_eq_true] at h'
    simp only [List.cons_append, List.dropWhile_cons, h'.1]
    simpa using ih h'.2

/-- The continuations the parser can be left with inside an argument list. -/
def restOk (rest : List Char) : Prop :=
  rest = [] ∨ (∃ cs, rest = ',' :: cs) ∨ ∃ cs, rest = '>' :: cs

theorem restOk_skipWs (rest : List Char) (h : restOk rest) : skipWs rest = rest := by
  rcases h with rfl | ⟨cs, rfl⟩ | ⟨cs, rfl⟩
  · rfl
  · exact skipWs_cons_of_ne _ _ (by decide)
  · exact skipWs_cons_of_ne _ _ (by decide)

theorem restOk_head_not_ident (rest : List Char) (h : restOk rest) :
    ∀ c cs, rest = c :: cs → isIdentChar c = false := by
  rcases h with rfl | ⟨cs, rfl⟩ | ⟨cs, rfl⟩ <;> (intro c cs' he; cases he <;> decide)

theorem printTrailing_head_ident (d : TDesc) (h : wfDesc d = true) :
    ∃ c cs, printTrailing d = c :: cs ∧ isIdentChar c = true := by
  cases d with
  | node name params =>
    have h' : ((!name.isEmpty && name.all isIdentChar) && wfDescList params) = true := h
    simp only [Bool.and_eq_true] at h'
    obtain ⟨⟨hne, hall⟩, _⟩ := h'
    cases name with
    | nil => exact absurd hne (by decide)
    | cons c cs =>
      have hc : (isIdentChar c && cs.all isIdentChar) = true := hall
      simp only [Bool.and_eq_true] at hc
      cases params with
      | nil => exact ⟨c, cs, rfl, hc.1⟩
      | cons p ps =>
        exact ⟨c, cs ++ '<' :: printArgsTrailing (p :: ps), by simp [printTrailing], hc.1⟩

theorem printArgsTrailing_length_pos (ds : List TDesc) :
    1 ≤ (printArgsTrailing ds).length := by
  cases ds with
  | nil => simp [printArgsTrailing]
  | cons d ds =>
    cases ds with
    | nil => simp [printArgsTrailing]
    | cons e es =>
      simp [printArgsTrailing]
      omega

theorem printTrailing_length_pos (d : TDesc) (h : wfDesc d = true) :
    1 ≤ (printTrailing d).length := by
  obtain ⟨c, cs, he, _⟩ := printTrailing_head_ident d h
  rw [he]
  simp

theorem skipWs_ident_append (name rest : List Char) (hall : name.all isIdentChar = true)
    (hne : name ≠ []) : skipWs (name ++ rest) = name ++ rest := by
  cases name with
  | nil => exact absurd rfl hne
  | cons c cs =>
    have hc : (isIdentChar c && cs.all isIdentChar) = true := hall
    simp only [Bool.and_eq_true] at hc
    rw [List.cons_append, skipWs_cons_of_ne c _ (isIdentChar_ne_space c hc.1),
      ← List.cons_append]

mutual
/-- Printing a well-formed descriptor in the trailing-comma convention and
re-parsing it (with fuel at least the printed length) recovers the descriptor
and leaves the remainder untouched. -/
theorem parseExprF_printTrailing (d : TDesc) (hwf : wfDesc d = true)
    (fuel : Nat) (hfuel : (printTrailing d).length ≤ fuel)
    (rest : List Char) (hrest : restOk rest) :
    parseExprF fuel (printTrailing d ++ rest) = some (d, rest) := by
  obtain ⟨F, rfl⟩ : ∃ f, fuel = f + 1 := by
    rcases fuel with _ | f
    · exact absurd (Nat.le_trans (printTrailing_length_pos d hwf) hfuel) (by omega)
    · exact ⟨f, rfl⟩
  cases d with
  | node name params =>
    have h' : ((!name.isEmpty && name.all isIdentChar) && wfDescList params) = true := hwf
    simp only [Bool.and_eq_true] at h'
    obtain ⟨⟨hne, hall⟩, hwl⟩ := h'
    obtain ⟨c, cs, rfl⟩ : ∃ c cs, name = c :: cs := by
      cases name with
      | nil => exact absurd hne (by decide)
      | cons c cs => exact ⟨c, cs, rfl⟩
    have hcident : isIdentChar c = true := by
      have hx : (isIdentChar c && cs.all isIdentChar) = true := hall
      simp only [Bool.and_eq_true] at hx
      exact hx.1
    cases params with
    | nil =>
      show parseExprF (F + 1) ((c :: cs) ++ rest) = some (.node (c :: cs) [], rest)
      simp only [parseExprF]
      rw [skipWs_ident_append (c :: cs) rest hall (by simp)]
      rw [takeWhile_ident_append _ _ hall (restOk_head_not_ident rest hrest)]
      rw [dropWhile_ident_append _ _ hall (restOk_head_not_ident rest hrest)]
      rw [restOk_skipWs rest hrest, if_neg (by simp)]
      rcases hrest with rfl | ⟨cs', rfl⟩ | ⟨cs', rfl⟩ <;> simp
    | cons p ps =>
      have hprint : printTrailing (.node (c :: cs) (p :: ps))
          = (c :: cs) ++ '<' :: printArgsTrailing (p :: ps) := rfl
      have hlenpa : (printArgsTrailing (p :: ps)).length ≤ F := by
        have hx := hfuel
        rw [hprint] at hx
        simp only [List.length_append, List.length_cons] at hx
        omega
      have harg : printTrailing (.node (c :: cs) (p :: ps)) ++ rest
          = (c :: cs) ++ ('<' :: (printArgsTrailing (p :: ps) ++ rest)) := by
        rw [hprint]
        simp
      rw [harg]
      simp only [parseExprF]
      rw [skipWs_ident_append (c :: cs) _ hall (by simp)]
      have hmark : ∀ c0 cs0, ('<' :: (printArgsTrailing (p :: ps) ++ rest)) = c0 :: cs0 →
          isIdentChar c0 = false := by
        intro c0 cs0 he
        cases he
        decide
      rw [takeWhile_ident_append _ _ hall hmark, dropWhile_ident_append _ _ hall hmark]
      rw [skipWs_cons_of_ne '<' _ (by decide), if_neg (by simp)]
      simp only [if_pos]
      rw [parseArgsF_printTrailing (p :: ps) (by simp) hwl F hlenpa rest hrest]
termination_by (sizeOf d, 0)
/-- Printing a well-formed nonempty parameter list (with its trailing comma)
and re-parsing it recovers the list and the remainder. -/
theorem parseArgsF_printTrailing (ds : List TDesc) (hne : ds ≠ [])
    (hwf : wfDescList ds = true)
    (fuel : Nat) (hfuel : (printArgsTrailing ds).length ≤ fuel)
    (rest : List Char) (hrest : restOk rest) :
    parseArgsF fuel (printArgsTrailing ds ++ rest) = some (ds, rest) := by
  obtain ⟨F, rfl⟩ : ∃ f, fuel = f + 1 := by
    rcases fuel with _ | f
    · exact absurd (Nat.le_trans (printArgsTrailing_length_pos ds) hfuel) (by omega)
    · exact ⟨f, rfl⟩
  cases ds with
  | nil => exact absurd rfl hne
  | cons d ds =>
    have h' : (wfDesc d && wfDescList ds) = true := hwf
    simp only [Bool.and_eq_true] at h'
    obtain ⟨hwd, hwds⟩ := h'
    cases ds with
    | nil =>
      show parseArgsF (F + 1) ((printTrailing d ++ [',', '>']) ++ rest) = some ([d], rest)
      have hflen : (printTrailing d).length ≤ F := by
        have hx : (printArgsTrailing [d]).length = (printTrailing d).length + 2 := by
          simp [printArgsTrailing]
        omega
      rw [List.append_assoc]
      have hstep := parseExprF_printTrailing d hwd F hflen (',' :: '>' :: rest)
        (Or.inr (Or.inl ⟨'>' :: rest, rfl⟩))
      simp only [parseArgsF]
      rw [show ([',', '>'] : List Char) ++ rest = ',' :: '>' :: rest from rfl]
      simp only [hstep]
      rw [skipWs_cons_of_ne ',' _ (by decide)]
      simp only [if_true]
      rw [skipWs_cons_of_ne '>' _ (by decide)]
      simp
    | cons e es =>
      show parseArgsF (F + 1)
          ((printTrailing d ++ ',' :: printArgsTrailing (e :: es)) ++ rest)
          = some (d :: e :: es, rest)
      have hlen2 : (printArgsTrailing (d :: e :: es)).length
          = (printTrailing d).length + 1 + (printArgsTrailing (e :: es)).length := by
        simp [printArgsTrailing]
        omega
      have hdpos := printTrailing_length_pos d hwd
      have hapos := printArgsTrailing_length_pos (e :: es)
      have hflen : (printTrailing d).length ≤ F := by omega
      have hflen2 : (printArgsTrailing (e :: es)).length ≤ F := by omega
      rw [List.append_assoc]
      have hstep := parseExprF_printTrailing d hwd F hflen
        (',' :: (printArgsTrailing (e :: es) ++ rest)) (Or.inr (Or.inl ⟨_, rfl⟩))
      simp only [parseArgsF]
      rw [show (',' :: printArgsTrailing (e :: es)) ++ rest
          = ',' :: (printArgsTrailing (e :: es) ++ rest) from rfl]
      simp only [hstep]
      rw [skipWs_cons_of_ne ',' _ (by decide)]
      simp only [if_true]
      have hwe : wfDesc e = true := by
        have hx : (wfDesc e && wfDescList es) = true := hwds
        simp only [Bool.and_eq_true] at hx
        exact hx.1
      obtain ⟨c0, cs0, hhead, hc0⟩ := printTrailing_head_ident e hwe
      have hheadargs : ∃ cs1, printArgsTrailing (e :: es) ++ rest = c0 :: cs1 := by
        cases es with
        | nil =>
          refine ⟨cs0 ++ [',', '>'] ++ rest, ?_⟩
          rw [show printArgsTrailing [e] = printTrailing e ++ [',', '>'] from rfl, hhead]
          simp
        | cons x xs =>
          refine ⟨cs0 ++ ',' :: printArgsTrailing (x :: xs) ++ rest, ?_⟩
          rw [show printArgsTrailing (e :: x :: xs)
              = printTrailing e ++ ',' :: printArgsTrailing (x :: xs) from rfl, hhead]
          simp
      obtain ⟨cs1, hcs1⟩ := hheadargs
      rw [hcs1, skipWs_cons_of_ne c0 _ (isIdentChar_ne_space c0 hc0)]
      show (if c0 = '>' then some ([d], cs1)
          else match parseArgsF F (c0 :: cs1) with
            | some (ds, s4) => some (d :: ds, s4)
            | none => none) = some (d :: e :: es, rest)
      rw [if_neg (isIdentChar_ne_markers c0 hc0).2.1, ← hcs1]
      rw [parseArgsF_printTrailing (e :: es) (by simp) hwds F hflen2 rest hrest]
termination_by (sizeOf ds, 1)
end

/-- Parsing the full printed form of a well-formed descriptor succeeds. -/
theorem parseTypeExpr_printTrailing (d : TDesc) (hwf : wfDesc d = true) :
    parseTypeExpr (printTrailing d) = some d := by
  have hstep := parseExprF_printTrailing d hwf ((printTrailing d).length + 1)
    (by omega) [] (Or.inl rfl)
  rw [List.append_nil] at hstep
  rw [parseTypeExpr, hstep]
  rfl

/-! ## Numeric suffixes of `arrayN` and `tupleN` names -/

/-- A decimal digit character. -/
def isDigitCh (c : Char) : Bool :=
  decide ('0' ≤ c) && decide (c ≤ '9')

/-- The value of an (unchecked) decimal digit string. -/
def digitsVal (s : List Char) : Nat :=
  s.foldl (fun acc c => acc * 10 + (c.toNat - 48)) 0

/-- Parse the numeric suffix of an `arrayN`/`tupleN` name: nonempty and all
decimal digits, else refuse (§4.1 "malformed numeric size suffix"). -/
def digitsToNat (s : List Char) : Option Nat :=
  if !s.isEmpty && s.all isDigitCh then some (digitsVal s) else none

/-- Decimal rendering of `n`, exactly `w` digits wide (modulo `10 ^ w`). -/
def natDigitsFixed : Nat → Nat → List Char
  | 0, _ => []
  | w + 1, n => natDigitsFixed w (n / 10) ++ [hexDigit (n % 10)]

/-- Decimal rendering of `n` with no leading zeros (`"0"` for zero). -/
def natDigits (n : Nat) : List Char :=
  if n = 0 then ['0'] else (natDigitsFixed n n).dropWhile (· == '0')

theorem hexDigit_toNat_of_lt_ten (d : Nat) (h : d < 10) :
    (hexDigit d).toNat - 48 = d := by
  interval_cases d <;> decide

theorem hexDigit_isDigit_of_lt_ten (d : Nat) (h : d < 10) :
    isDigitCh (hexDigit d) = true := by
  interval_cases d <;> decide

theorem digitsVal_append_singleton (s : List Char) (c : Char) :
    digitsVal (s ++ [c]) = digitsVal s * 10 + (c.toNat - 48) := by
  simp [digitsVal, List.foldl_append]

theorem digitsVal_natDigitsFixed (w n : Nat) :
    digitsVal (natDigitsFixed w n) = n % 10 ^ w := by
  induction w generalizing n with
  | zero => simp [natDigitsFixed, digitsVal, Nat.mod_one]
  | succ w ih =>
    rw [natDigitsFixed, digitsVal_append_singleton, ih,
      hexDigit_toNat_of_lt_ten _ (Nat.mod_lt n (by omega)),
      show (10 : Nat) ^ (w + 1) = 10 * 10 ^ w by rw [Nat.pow_succ]; ring, Nat.mod_mul]
    ring

theorem digitsVal_dropWhile_zero (s : List Char) :
    digitsVal (s.dropWhile (· == '0')) = digitsVal s := by
  induction s with
  | nil => simp
  | cons c s ih =>
    by_cases hc : c = '0'
    · subst hc
      simp only [List.dropWhile_cons]
      simpa [digitsVal] using ih
    · simp [List.dropWhile_cons, hc]

theorem lt_pow_self_10 (n : Nat) : n < 10 ^ n :=
  Nat.lt_of_lt_of_le (Nat.lt_two_pow n) (Nat.pow_le_pow_left (by omega) n)

theorem digitsVal_natDigits (n : Nat) : digitsVal (natDigits n) = n := by
  rw [natDigits]
  by_cases h0 : n = 0
  · subst h0
    decide
  · rw [if_neg h0, digitsVal_dropWhile_zero, digitsVal_natDigitsFixed,
      Nat.mod_eq_of_lt (lt_pow_self_10 n)]

theorem all_dropWhile_of_all (p q : Char → Bool) (l : List Char)
    (h : l.all p = true) : (l.dropWhile q).all p = true := by
  induction l with
  | nil => simp
  | cons c l ih =>
    simp only [List.all_cons, Bool.and_eq_true] at h
    rw [List.dropWhile_cons]
    by_cases hq : q c = true
    · simp only [hq, if_pos]
      exact ih h.2
    · simp only [hq]
      simp only [Bool.false_eq_true, if_false, List.all_cons, Bool.and_eq_true]
      exact ⟨h.1, h.2⟩

theorem natDigitsFixed_all_digits (w n : Nat) :
    (natDigitsFixed w n).all isDigitCh = true := by
  induction w generalizing n with
  | zero => simp [natDigitsFixed]
  | succ w ih =>
    rw [natDigitsFixed]
    simp only [List.all_append, Bool.and_eq_true]
    exact ⟨ih _, by simp [hexDigit_isDigit_of_lt_ten _ (Nat.mod_lt n (by omega))]⟩

theorem natDigits_all_digits (n : Nat) : (natDigits n).all isDigitCh = true := by
  rw [natDigits]
  by_cases h0 : n = 0
  · subst h0; decide
  · rw [if_neg h0]
    exact all_dropWhile_of_all _ _ _ (natDigitsFixed_all_digits n n)

theorem natDigits_ne_nil (n : Nat) : natDigits n ≠ [] := by
  intro hc
  have hv := digitsVal_natDigits n
  rw [hc] at hv
  have h0 : digitsVal [] = 0 := rfl
  rw [h0] at hv
  subst hv
  exact absurd hc (by decide)

theorem digitsToNat_natDigits (n : Nat) : digitsToNat (natDigits n) = some n := by
  rw [digitsToNat, if_pos, digitsVal_natDigits]
  simp only [Bool.and_eq_true, Bool.not_eq_eq_eq_not, Bool.not_false]
  constructor
  · cases he : natDigits n with
    | nil => exact absurd he (natDigits_ne_nil n)
    | cons c cs => rfl
  · exact natDigits_all_digits n

/-- Strip a literal name part off the front of an identifier; yields the
remainder on success. -/
def stripName : List Char → List Char → Option (List Char)
  | [], s => some s
  | _ :: _, [] => none
  | c :: cs, d :: ds => if c = d then stripName cs ds else none

theorem stripName_append (xs ys : List Char) : stripName xs (xs ++ ys) = some ys := by
  induction xs with
  | nil => rfl
  | cons c cs ih =>
    rw [List.cons_append]
    simp only [stripName, if_pos rfl]
    exact ih

/-! ## The type mapper -/

/-- The mapper's error taxonomy (§4.2, §7): `ErrTypeNotFound` for a name
missing from the catalogue's registry, `ErrInvalidTypeExpression` for an
arity violation. -/
inductive MapErr where
  | errTypeNotFound
  | errInvalidTypeExpression

/-- Modelled from the spec (§2, §4.2): the mapper's resolved types — the type
catalogue closed under the generic containers, plus the variadic, composite
multi-value and optional kinds that the catalogue exposes to the argument
serializer. -/
inductive MTy where
  | mU8 | mU16 | mU32 | mU64
  | mI8 | mI16 | mI32 | mI64
  | mBigUint | mBigInt
  | mAddress | mBytes | mBool | mTokenIdentifier
  | mOption (t : MTy)
  | mList (t : MTy)
  | mArray (n : Nat) (t : MTy)
  | mTuple (ts : List MTy)
  | mVariadic (t : MTy)
  | mComposite (ts : List MTy)
  | mOptional (t : MTy)

/-- A primitive constructor has arity 0: the descriptor must have no nested
parameters (§4.2 step 2). -/
def mapPrimitive (params : List TDesc) (t : MTy) : Except MapErr MTy :=
  if params.isEmpty then .ok t else .error .errInvalidTypeExpression

/-- Construct a generic type of arity 1 from the mapped parameter list
(§4.2 step 3): exactly one resolved parameter is required. -/
def mkGeneric1 (r : Except MapErr (List MTy)) (f : MTy → MTy) : Except MapErr MTy :=
  match r with
  | .ok [t] => .ok (f t)
  | .ok _ => .error .errInvalidTypeExpression
  | .error e => .error e

/-- Construct a tuple from the mapped parameter list: the count of resolved
parameters must equal the arity `k` declared in the name suffix (§4.2). -/
def mkTuple (k : Nat) (r : Except MapErr (List MTy)) : Except MapErr MTy :=
  match r with
  | .ok ts => if ts.length = k then .ok (.mTuple ts) else .error .errInvalidTypeExpression
  | .error e => .error e

/-- Construct a composite multi-value type from the mapped parameter list
(variable arity `≥ 1`, §4.2). -/
def mkComposite (r : Except MapErr (List MTy)) : Except MapErr MTy :=
  match r with
  | .ok [] => .error .errInvalidTypeExpression
  | .ok ts => .ok (.mComposite ts)
  | .error e => .error e

/-- Construct a fixed-size array of size `k` from the mapped parameters:
exactly one resolved element type is required (§4.2 step 4). -/
def mkArray (k : Nat) (r : Except MapErr (List MTy)) : Except MapErr MTy :=
  match r with
  | .ok [t] => .ok (.mArray k t)
  | .ok _ => .error .errInvalidTypeExpression
  | .error e => .error e

mutual
/-- Modelled from the spec (§4.2): `mapType(descriptor) -> Type`.  Names
encoding a numeric size suffix (`tupleN`, `arrayN`) are handled by parsing
the suffix; otherwise the name is looked up in the registry of constructors
(primitives with arity 0; `Option`/`List`/variadic/optional generics with
arity 1; composite multi-values with arity ≥ 1).  Nested parameters are
mapped recursively (depth-first) before the concrete type is constructed;
arity mismatches yield `ErrInvalidTypeExpression` and unknown names
`ErrTypeNotFound`. -/
def mapTypeD : TDesc → Except MapErr MTy
  | .node name params =>
    match stripName "tuple".data name with
    | some suffix =>
      match digitsToNat suffix with
      | some k => mkTuple k (mapListD params)
      | none => .error .errTypeNotFound
    | none =>
    match stripName "array".data name with
    | some suffix =>
      match digitsToNat suffix with
      | some k => mkArray k (mapListD params)
      | none => .error .errTypeNotFound
    | none =>
    if name = "u8".data then mapPrimitive params .mU8
    else if name = "u16".data then mapPrimitive params .mU16
    else if name = "u32".data then mapPrimitive params .mU32
    else if name = "u64".data then mapPrimitive params .mU64
    else if name = "i8".data then mapPrimitive params .mI8
    else if name = "i16".data then mapPrimitive params .mI16
    else if name = "i32".data then mapPrimitive params .mI32
    else if name = "i64".data then mapPrimitive params .mI64
    else if name = "BigUint".data then mapPrimitive params .mBigUint
    else if name = "BigInt".data then mapPrimitive params .mBigInt
    else if name = "Address".data then mapPrimitive params .mAddress
    else if name = "bytes".data then mapPrimitive params .mBytes
    else if name = "bool".data then mapPrimitive params .mBool
    else if name = "TokenIdentifier".data then mapPrimitive params .mTokenIdentifier
    else if name = "Option".data then mkGeneric1 (mapListD params) .mOption
    else if name = "List".data then mkGeneric1 (mapListD params) .mList
    else if name = "VarArgs".data then mkGeneric1 (mapListD params) .mVariadic
    else if name = "MultiResultVec".data then mkGeneric1 (mapListD params) .mVariadic
    else if name = "OptionalResult".data then mkGeneric1 (mapListD params) .mOptional
    else if name = "Optional".data then mkGeneric1 (mapListD params) .mOptional
    else if name = "MultiArg".data then mkComposite (mapListD params)
    else if name = "MultiResult".data then mkComposite (mapListD params)
    else .error .errTypeNotFound
/-- Map each nested parameter in order, depth-first (§4.2 step 3). -/
def mapListD : List TDesc → Except MapErr (List MTy)
  | [] => .ok []
  | d :: ds =>
    match mapTypeD d with
    | .ok t =>
      match mapListD ds with
      | .ok ts => .ok (t :: ts)
      | .error e => .error e
    | .error e => .error e
end

/-- Parse a type-expression string and map it to a resolved catalogue type
(`TypeMapper.mapType ∘ TypeExpressionParser.parse`). -/
def mapTypeExpr (s : List Char) : Option (Except MapErr MTy) :=
  (parseTypeExpr s).map mapTypeD

/-- The names the mapper's registry recognises: `tupleN`/`arrayN` with a
well-formed decimal suffix, the primitives, and the arity-1 / composite
generic constructors. -/
def nameInCatalogue (name : List Char) : Bool :=
  (match stripName "tuple".data name with
   | some suffix => (digitsToNat suffix).isSome
   | none => false) ||
  (match stripName "array".data name with
   | some suffix => (digitsToNat suffix).isSome
   | none => false) ||
  name = "u8".data || name = "u16".data || name = "u32".data || name = "u64".data ||
  name = "i8".data || name = "i16".data || name = "i32".data || name = "i64".data ||
  name = "BigUint".data || name = "BigInt".data || name = "Address".data ||
  name = "bytes".data || name = "bool".data || name = "TokenIdentifier".data ||
  name = "Option".data || name = "List".data || name = "VarArgs".data ||
  name = "MultiResultVec".data || name = "OptionalResult".data ||
  name = "Optional".data || name = "MultiArg".data || name = "MultiResult".data

/-! ## Claim C4: trailing commas before `>` -/

/-- **C4.** Parsing `"MultiResultVec<MultiResult<i32,bytes,>>"` succeeds
despite the trailing comma before `>` and maps to a Variadic type wrapping
the two-component composite of (i32, bytes), equal to the manual
construction; and, in general, the trailing-comma rendering of any
well-formed descriptor parses back to exactly that descriptor, so a trailing
comma before a closing `>` never causes a parse failure. -/
theorem c4_trailing_comma_tolerated :
    mapTypeExpr "MultiResultVec<MultiResult<i32,bytes,>>".data
        = some (.ok (.mVariadic (.mComposite [.mI32, .mBytes]))) ∧
      ∀ d : TDesc, wfDesc d = true → parseTypeExpr (printTrailing d) = some d :=
  ⟨rfl, fun d h => parseTypeExpr_printTrailing d h⟩

/-- Witness for C4 at the descriptor printed as `MultiResult<i32,bytes,>`. -/
theorem c4_trailing_comma_witness :
    wfDesc (.node "MultiResult".data [.node "i32".data [], .node "bytes".data []]) = true ∧
      parseTypeExpr (printTrailing
          (.node "MultiResult".data [.node "i32".data [], .node "bytes".data []]))
        = some (.node "MultiResult".data [.node "i32".data [], .node "bytes".data []]) :=
  ⟨by decide, c4_trailing_comma_tolerated.2 _ (by decide)⟩

/-! ## Claim C6: arity mismatches and unknown names -/

/-- **C6.** `mapType(parse("tuple2<u32>"))` fails with
`ErrInvalidTypeExpression` (arity mismatch: exactly 2 nested parameters are
required); in general a `tupleN` name whose mapped parameter count differs
from the declared arity `N` fails with `ErrInvalidTypeExpression`, and a
descriptor name outside the catalogue fails with `ErrTypeNotFound`. -/
theorem c6_arity_and_unknown_name_errors :
    mapTypeExpr "tuple2<u32>".data = some (.error .errInvalidTypeExpression) ∧
      (∀ (k : Nat) (params : List TDesc) (ts : List MTy),
        mapListD params = .ok ts → ts.length ≠ k →
        mapTypeD (.node ("tuple".data ++ natDigits k) params)
          = .error .errInvalidTypeExpression) ∧
      ∀ (name : List Char) (params : List TDesc), nameInCatalogue name = false →
        mapTypeD (.node name params) = .error .errTypeNotFound := by
  refine ⟨rfl, ?_, ?_⟩
  · intro k params ts hmap hlen
    simp only [mapTypeD, stripName_append, digitsToNat_natDigits, hmap, mkTuple]
    rw [if_neg hlen]
  · intro name params h
    have hne : ∀ lit : List Char, nameInCatalogue lit = true → name ≠ lit := by
      intro lit hlit he
      rw [he, hlit] at h
      exact Bool.noConfusion h
    have htupleCase : ∀ suffix, stripName "tuple".data name = some suffix →
        digitsToNat suffix = none := by
      intro suffix hs
      rcases hd : digitsToNat suffix with _ | k
      · rfl
      · exfalso
        have hcat : nameInCatalogue name = true := by
          rw [nameInCatalogue, hs]
          simp [hd]
        rw [hcat] at h
        exact Bool.noConfusion h
    have harrayCase : ∀ suffix, stripName "array".data name = some suffix →
        digitsToNat suffix = none := by
      intro suffix hs
      rcases hd : digitsToNat suffix with _ | k
      · rfl
      · exfalso
        have hcat : nameInCatalogue name = true := by
          rw [nameInCatalogue, hs]
          rcases hstu : stripName "tuple".data name with _ | su <;> simp [hd]
        rw [hcat] at h
        exact Bool.noConfusion h
    have hne0 : name ≠ "u8".data := hne "u8".data (by decide)
    have hne1 : name ≠ "u16".data := hne "u16".data (by decide)
    have hne2 : name ≠ "u32".data := hne "u32".data (by decide)
    have hne3 : name ≠ "u64".data := hne "u64".data (by decide)
    have hne4 : name ≠ "i8".data := hne "i8".data (by decide)
    have hne5 : name ≠ "i16".data := hne "i16".data (by decide)
    have hne6 : name ≠ "i32".data := hne "i32".data (by decide)
    have hne7 : name ≠ "i64".data := hne "i64".data (by decide)
    have hne8 : name ≠ "BigUint".data := hne "BigUint".data (by decide)
    have hne9 : name ≠ "BigInt".data := hne "BigInt".data (by decide)
    have hne10 : name ≠ "Address".data := hne "Address".data (by decide)
    have hne11 : name ≠ "bytes".data := hne "bytes".data (by decide)
    have hne12 : name ≠ "bool".data := hne "bool".data (by decide)
    have hne13 : name ≠ "TokenIdentifier".data := hne "TokenIdentifier".data (by decide)
    have hne14 : name ≠ "Option".data := hne "Option".data (by decide)
    have hne15 : name ≠ "List".data := hne "List".data (by decide)
    have hne16 : name ≠ "VarArgs".data := hne "VarArgs".data (by decide)
    have hne17 : name ≠ "MultiResultVec".data := hne "MultiResultVec".data (by decide)
    have hne18 : name ≠ "OptionalResult".data := hne "OptionalResult".data (by decide)
    have hne19 : name ≠ "Optional".data := hne "Optional".data (by decide)
    have hne20 : name ≠ "MultiArg".data := hne "MultiArg".data (by decide)
    have hne21 : name ≠ "MultiResult".data := hne "MultiResult".data (by decide)
    simp only [mapTypeD]
    rcases hstuple : stripName "tuple".data name with _ | suffix
    · rcases hsarray : stripName "array".data name with _ | suffix2
      · simp [hne0, hne1, hne2, hne3, hne4, hne5, hne6, hne7, hne8, hne9, hne10, hne11, hne12, hne13, hne14, hne15, hne16, hne17, hne18, hne19, hne20, hne21]
      · simp [harrayCase suffix2 hsarray]
    · simp [htupleCase suffix hstuple]

/-- Witness for C6: `tuple3` supplied with a single `u32` parameter. -/
theorem c6_arity_witness :
    mapListD [TDesc.node "u32".data []] = .ok [MTy.mU32] ∧
      mapTypeD (.node ("tuple".data ++ natDigits 3) [TDesc.node "u32".data []])
        = .error .errInvalidTypeExpression :=
  ⟨rfl, c6_arity_and_unknown_name_errors.2.1 3 _ [MTy.mU32] rfl (by decide)⟩

/-! ## Claim C7: fixed-size array names -/

/-- **C7.** For every expression `arrayN<T>` with numeric suffix `N`, the
mapper parses the suffix and constructs a fixed-size array type of exactly
size `N` wrapping the recursively resolved element type, equal to the manual
construction; concretely for `array2`, `array8` and `array256` as in the
repository's tests. -/
theorem c7_array_size_mapping :
    (∀ (n : Nat) (d : TDesc) (mt : MTy), mapTypeD d = .ok mt →
        mapTypeD (.node ("array".data ++ natDigits n) [d]) = .ok (.mArray n mt)) ∧
      mapTypeExpr "array2<BigUint>".data = some (.ok (.mArray 2 .mBigUint)) ∧
      mapTypeExpr "array2<u32>".data = some (.ok (.mArray 2 .mU32)) ∧
      mapTypeExpr "array8<BigUint>".data = some (.ok (.mArray 8 .mBigUint)) ∧
      mapTypeExpr "array256<BigUint>".data = some (.ok (.mArray 256 .mBigUint)) := by
  refine ⟨?_, rfl, rfl, rfl, rfl⟩
  intro n d mt hd
  have htuple : stripName "tuple".data ("array".data ++ natDigits n) = none := rfl
  simp only [mapTypeD, htuple, stripName_append, digitsToNat_natDigits, mapListD, hd,
    mkArray]

/-- Witness for C7: `array3` of `u64`. -/
theorem c7_array_witness :
    mapTypeD (TDesc.node "u64".data []) = .ok MTy.mU64 ∧
      mapTypeD (.node ("array".data ++ natDigits 3) [TDesc.node "u64".data []])
        = .ok (.mArray 3 .mU64) :=
  ⟨rfl, c7_array_size_mapping.1 3 _ .mU64 rfl⟩

/-! ## Claim C8: deterministic re-mapping (with an optional cache) -/

/-- An (expression string → mapped result) memoizing cache, as the spec
allows reusing parser/mapper instances across calls (§3, §5). -/
abbrev TypeCache : Type :=
  List (List Char × Option (Except MapErr MTy))

/-- Look an expression string up in the cache. -/
def lookupCache : TypeCache → List Char → Option (Option (Except MapErr MTy))
  | [], _ => none
  | (k, v) :: rest, s => if k = s then some v else lookupCache rest s

/-- `mapTypeExpr` through the cache: reuse a hit, record a miss. -/
def mapTypeExprCached (c : TypeCache) (s : List Char) :
    Option (Except MapErr MTy) × TypeCache :=
  match lookupCache c s with
  | some r => (r, c)
  | none => (mapTypeExpr s, (s, mapTypeExpr s) :: c)

/-- Every cache entry agrees with a fresh parse-and-map of its key. -/
abbrev goodCache (c : TypeCache) : Prop :=
  ∀ p, p ∈ c → p.2 = mapTypeExpr p.1

theorem lookupCache_good (c : TypeCache) (s : List Char)
    (hc : goodCache c) (r : Option (Except MapErr MTy))
    (h : lookupCache c s = some r) : r = mapTypeExpr s := by
  induction c with
  | nil => exact absurd h (by simp [lookupCache])
  | cons q rest ih =>
    obtain ⟨k, v⟩ := q
    rw [lookupCache] at h
    by_cases hk : k = s
    · rw [if_pos hk] at h
      injection h with hvr
      have h2 := hc (k, v) (List.mem_cons_self _ _)
      simp only at h2
      rw [← hvr, h2, hk]
    · rw [if_neg hk] at h
      exact ih (fun p hp => hc p (List.mem_cons_of_mem _ hp)) h

/-- **C8.** Parsing and mapping the same type-expression string is
deterministic: with any correctly populated (possibly reused) cache, the
cached call returns exactly the fresh parse-and-map result and leaves the
cache correct, so evaluating the same expression twice — including through
the same reused parser/mapper instances — yields structurally equal
results. -/
theorem c8_remapping_deterministic (c : TypeCache) (s : List Char)
    (hc : goodCache c) :
    (mapTypeExprCached c s).1 = mapTypeExpr s ∧
      goodCache (mapTypeExprCached c s).2 ∧
      (mapTypeExprCached (mapTypeExprCached c s).2 s).1 = (mapTypeExprCached c s).1 := by
  have hmain : ∀ c0, goodCache c0 → (mapTypeExprCached c0 s).1 = mapTypeExpr s ∧
      goodCache (mapTypeExprCached c0 s).2 := by
    intro c0 hc0
    rcases hl : lookupCache c0 s with _ | r
    · have he : mapTypeExprCached c0 s = (mapTypeExpr s, (s, mapTypeExpr s) :: c0) := by
        unfold mapTypeExprCached
        rw [hl]
      rw [he]
      refine ⟨rfl, ?_⟩
      intro p hp
      rcases List.mem_cons.mp hp with rfl | hm
      · rfl
      · exact hc0 p hm
    · have he : mapTypeExprCached c0 s = (r, c0) := by
        unfold mapTypeExprCached
        rw [hl]
      rw [he]
      exact ⟨lookupCache_good c0 s hc0 r hl, hc0⟩
  obtain ⟨h1, h2⟩ := hmain c hc
  obtain ⟨h3, _⟩ := hmain (mapTypeExprCached c s).2 h2
  exact ⟨h1, h2, by rw [h3, h1]⟩

/-- Witness for C8: a fresh cache and the expression `List<u64>`. -/
theorem c8_remapping_witness :
    goodCache [] ∧
      (mapTypeExprCached [] "List<u64>".data).1 = mapTypeExpr "List<u64>".data :=
  ⟨fun p hp => absurd hp (List.not_mem_nil p),
   (c8_remapping_deterministic [] "List<u64>".data
     (fun p hp => absurd hp (List.not_mem_nil p))).1⟩

/-! ## Claim C9: `SmartContractTransactionsFactory.argsToDataParts`

From `src/transactionsFactories/smartContractTransactionsFactory.ts`: with an
ABI endpoint the arguments go through native-value inference and are then
serialized; without one, they are serialized directly when every argument
carries the `belongsToTypesystem` marker, and otherwise the factory throws
`Err("Can't convert args to TypedValues")`. -/

/-- A native (untyped) call argument in the universe of spec section 4.5: a
number, a boolean, a byte buffer, null/absent, or an array-like value. -/
inductive NativeArg where
  | nNum (i : Int)
  | nBool (b : Bool)
  | nBytes (bs : List Nat)
  | nNull
  | nArr (elems : List NativeArg)

/-- Modelled from the spec: the failure modes of native-value inference
(sections 4.5 and 7), whose source (`NativeSerializer`) is not in the
snapshot — `ErrInvalidArgument` for numeric range violations,
`ErrCannotInferType` for a value whose shape does not structurally match its
declared type, and the distinct error raised when the argument count
mismatches a non-variadic endpoint arity. -/
inductive InferErr where
  | errArityMismatch
  | errCannotInferType
  | errInvalidArgument

mutual
/-- Modelled from the spec: inference of one native value against its
declared parameter type (section 4.5, `NativeSerializer` not being in the
snapshot) — primitive native values map directly to the matching primitive
type with the numeric range validated against the target width
(`ErrInvalidArgument` on overflow), an array-like value maps to
List/fixed-array/tuple element-wise per declared element/member type, null
maps to an empty Option, and a shape that does not structurally match the
declared type fails with `ErrCannotInferType`. -/
def inferVal : Ty → NativeArg → Except InferErr Val
  | .tyU w, .nNum i =>
    if 0 ≤ i ∧ i < (256 : Int) ^ w then .ok (.vU w i.toNat)
    else .error .errInvalidArgument
  | .tyI w, .nNum i =>
    if inIntRange w i then .ok (.vI w i) else .error .errInvalidArgument
  | .tyBigUint, .nNum i =>
    if 0 ≤ i then .ok (.vBigUint i.toNat) else .error .errInvalidArgument
  | .tyBigInt, .nNum i => .ok (.vBigInt i)
  | .tyBool, .nBool b => .ok (.vBool b)
  | .tyAddress, .nBytes bs =>
    if bs.length = 32 then .ok (.vAddress bs) else .error .errInvalidArgument
  | .tyBytes, .nBytes bs => .ok (.vBytes bs)
  | .tyString, .nBytes bs => .ok (.vString bs)
  | .tyTokenId, .nBytes bs => .ok (.vTokenId bs)
  | .tyOption _, .nNull => .ok .vNone
  | .tyOption t, a => (inferVal t a).map .vSome
  | .tyList t, .nArr es => (inferElems t es).map .vList
  | .tyArray n t, .nArr es =>
    if es.length = n then (inferElems t es).map .vArray
    else .error .errCannotInferType
  | .tyTuple ts, .nArr es => (inferMembers ts es).map .vTuple
  | _, _ => .error .errCannotInferType
termination_by t a => (sizeOf t, sizeOf a)
/-- Element-wise inference of a homogeneous array-like value. -/
def inferElems : Ty → List NativeArg → Except InferErr (List Val)
  | _, [] => .ok []
  | t, e :: es => do
    let v ← inferVal t e
    let vs ← inferElems t es
    pure (v :: vs)
termination_by t es => (sizeOf t, sizeOf es)
/-- Member-wise inference of a tuple-like value (a member-count mismatch is
a shape mismatch). -/
def inferMembers : List Ty → List NativeArg → Except InferErr (List Val)
  | [], [] => .ok []
  | t :: ts, e :: es => do
    let v ← inferVal t e
    let vs ← inferMembers ts es
    pure (v :: vs)
  | _, _ => .error .errCannotInferType
termination_by ts es => (sizeOf ts, sizeOf es)
end

/-- The mutable transaction fields (addresses as bech32 strings, the payload
and signatures as bytes).  The cached transaction hash, which
`applySignature` also recomputes, is not part of the signing serialization
and is not modelled. -/
structure Transaction where
  nonce : Nat
  value : Int
  receiver : List Char
  sender : List Char
  gasPrice : Nat
  gasLimit : Nat
  data : List Nat
  chainID : List Char
  version : Nat
  options : Nat
  guardian : List Char
  signature : List Nat
  guardianSignature : List Nat

/-- Decimal rendering of an integer (`BigNumber.toString`). -/
def intDigits (i : Int) : List Char :=
  if i < 0 then '-' :: natDigits i.natAbs else natDigits i.toNat

/-- The ready-to-serialize plain object (`IPlainTransactionObject`); `none`
models a field set to `undefined`. -/
structure PlainTransaction where
  nonce : Nat
  value : List Char
  receiver : List Char
  sender : List Char
  gasPrice : Nat
  gasLimit : Nat
  data : Option (List Nat)
  chainID : List Char
  version : Nat
  options : Option Nat
  guardian : Option (List Char)
  signature : Option (List Nat)
  guardianSignature : Option (List Nat)

/-- `Transaction.toPlainObject` (transaction.ts:285-305): empty data, zero
options, an empty guardian address and empty signatures become `undefined`. -/
def toPlainObject (tx : Transaction) : PlainTransaction :=
  { nonce := tx.nonce
    value := intDigits tx.value
    receiver := tx.receiver
    sender := tx.sender
    gasPrice := tx.gasPrice
    gasLimit := tx.gasLimit
    data := if tx.data.length = 0 then none else some tx.data
    chainID := tx.chainID
    version := tx.version
    options := if tx.options = 0 then none else some tx.options
    guardian := if tx.guardian = [] then none else some tx.guardian
    signature := if tx.signature = [] then none else some tx.signature
    guardianSignature :=
      if tx.guardianSignature = [] then none else some tx.guardianSignature }

/-- `JSON.stringify` of the plain object, with `undefined` fields omitted
(key quoting and string escaping are immaterial to the properties proved
here and are elided). -/
def renderPlain (p : PlainTransaction) : List Char :=
  '\x7b' :: ("nonce:".data ++ natDigits p.nonce)
    ++ (",value:".data ++ p.value)
    ++ (",receiver:".data ++ p.receiver)
    ++ (",sender:".data ++ p.sender)
    ++ (",gasPrice:".data ++ natDigits p.gasPrice)
    ++ (",gasLimit:".data ++ natDigits p.gasLimit)
    ++ (match p.data with
        | none => []
        | some bs => ",data:".data ++ bytesToHex bs)
    ++ (",chainID:".data ++ p.chainID)
    ++ (",version:".data ++ natDigits p.version)
    ++ (match p.options with
        | none => []
        | some o => ",options:".data ++ natDigits o)
    ++ (match p.guardian with
        | none => []
        | some g => ",guardian:".data ++ g)
    ++ (match p.signature with
        | none => []
        | some sg => ",signature:".data ++ bytesToHex sg)
    ++ (match p.guardianSignature with
        | none => []
        | some sg => ",guardianSignature:".data ++ bytesToHex sg)
    ++ ['\x7d']

/-- `Transaction.serializeForSigning` (transaction.ts:251-270): delete the
`signature` and `guardianSignature` fields from the plain object (and the
already-absent falsy `guardian`), then serialize. -/
def serializeForSigning (tx : Transaction) : List Char :=
  renderPlain { toPlainObject tx with signature := none, guardianSignature := none }

/-- `Transaction.applySignature` (transaction.ts:347-355): store the
signature bytes. -/
def applySignature (tx : Transaction) (signature : List Nat) : Transaction :=
  { tx with signature := signature }

/-- `Transaction.applyGuardianSignature` (transaction.ts:362-370). -/
def applyGuardianSignature (tx : Transaction) (guardianSignature : List Nat) :
    Transaction :=
  { tx with guardianSignature := guardianSignature }

/-- **C10.** `serializeForSigning` returns bytes independent of any applied
signature or guardian signature: for any transaction the bytes before
`applySignature`/`applyGuardianSignature` equal the bytes after, since the
signature and guardian-signature fields are deleted from the plain object
before JSON serialization. -/
theorem c10_serialize_signature_independent (tx : Transaction)
    (sig gsig : List Nat) :
    serializeForSigning (applyGuardianSignature (applySignature tx sig) gsig)
        = serializeForSigning tx ∧
      serializeForSigning (applySignature tx sig) = serializeForSigning tx ∧
      serializeForSigning (applyGuardianSignature tx gsig) = serializeForSigning tx :=
  ⟨rfl, rfl, rfl⟩

end ErdSpec
